import Mathlib

/-!
Verification of the page-readiness and crawl-discovery core of the
`screenshot-tool` repository (`capture-website-screenshots.mjs`, canonical
multi-URL version).

The development shallowly embeds the relevant JavaScript functions:

* `normalizeCaptureUrl`, `extractUrlsFromText`, `uniqueOrdered`,
  `trimUrlPunctuation` — URL normalisation and text extraction;
* `parseCliArguments` — the CLI argument loop;
* `resolvePageKey`, `resolveOutputKey` — output-key derivation;
* `crawlTargets` — the bounded breadth-first crawl loop;
* the scroll-stabilisation loop inside `triggerDeferredContent`.

Strings are modelled as `List Char` (`String.data`) so that every
definition is executable by kernel reduction.  The WHATWG `new URL`
parser used by the script is an external runtime facility; it is
modelled here by `parseUrl`, a simplified hierarchical URL parser that
covers the behaviours the script relies on (scheme detection and
lowercasing, authority/host/port splitting, default-port dropping,
fragment and query splitting, empty path canonicalised to "/").  The
model is stricter than WHATWG in documented ways: it rejects remaining
whitespace (WHATWG percent-encodes or strips it), rejects userinfo
(`@`), and does not resolve dot segments or percent-encode.  All claims
about URL-handling are stated relative to this model.
-/

set_option autoImplicit false

namespace ScreenshotTool

/-! ## Character classes and basic list utilities -/

/-- Whitespace characters recognised by the model (`String.trim`, `\s`). -/
def wsChar (c : Char) : Bool :=
  c = ' ' || c = '\t' || c = '\n' || c = '\r'

/-- ASCII lowercasing, as performed by `toLowerCase` on ASCII input and by
the URL parser on scheme and host. -/
def lowerChar (c : Char) : Char :=
  if 65 ≤ c.toNat ∧ c.toNat ≤ 90 then Char.ofNat (c.toNat + 32) else c

/-- ASCII letter test, i.e. the regex class `[a-zA-Z]`. -/
def isAsciiAlpha (c : Char) : Bool :=
  (97 ≤ c.toNat && c.toNat ≤ 122) || (65 ≤ c.toNat && c.toNat ≤ 90)

/-- ASCII digit test, i.e. the regex class `[0-9]`. -/
def isAsciiDigit (c : Char) : Bool :=
  48 ≤ c.toNat && c.toNat ≤ 57

/-- The regex class `[a-z0-9]` used by the key slugifier. -/
def isSlugChar (c : Char) : Bool :=
  (97 ≤ c.toNat && c.toNat ≤ 122) || (48 ≤ c.toNat && c.toNat ≤ 57)

/-- Characters allowed after the first one in a scheme, the regex class
`[a-zA-Z0-9+.-]` of `normalizeCaptureUrl`. -/
def schemeChar (c : Char) : Bool :=
  isAsciiAlpha c || isAsciiDigit c || c = '+' || c = '.' || c = '-'

/-- Characters ending the authority part of a URL. -/
def stopChar (c : Char) : Bool :=
  c = '/' || c = '?' || c = '#'

/-- Model of `String.prototype.trim`. -/
def trimChars (l : List Char) : List Char :=
  ((l.dropWhile wsChar).reverse.dropWhile wsChar).reverse

/-- Does `l` start with `pat`?  Model of `String.prototype.startsWith`. -/
def startsWithC : List Char → List Char → Bool
  | _, [] => true
  | [], _ :: _ => false
  | c :: cs, p :: ps => c = p && startsWithC cs ps

/-- `uniqueOrdered` from the script: deduplicate while preserving first-seen
order (a JavaScript `Set` keeps insertion order). -/
def uniqueOrdered {α : Type} [DecidableEq α] (values : List α) : List α :=
  go values []
where
  /-- Accumulator-free formulation: keep an element iff it has not been seen. -/
  go : List α → List α → List α
  | [], _ => []
  | v :: rest, seen =>
    if v ∈ seen then go rest seen else v :: go rest (v :: seen)

/-- Split a list at every occurrence of the character `sep` (the separator
is dropped), as `String.prototype.split` does. -/
def splitOnChar (sep : Char) : List Char → List (List Char)
  | [] => [[]]
  | c :: rest =>
    if c = sep then [] :: splitOnChar sep rest
    else
      match splitOnChar sep rest with
      | [] => [[c]]
      | piece :: pieces => (c :: piece) :: pieces

/-! ## Decimal digits (for ports, timestamps and numeric suffixes) -/

/-- The decimal digit character for `d < 10`. -/
def digitChar (d : Nat) : Char := Char.ofNat (48 + d)

/-- Numeric value of a digit character. -/
def digitVal (c : Char) : Nat := c.toNat - 48

/-- Fuelled decimal printer; `natToChars` supplies enough fuel. -/
def natToCharsAux : Nat → Nat → List Char
  | 0, _ => []
  | fuel + 1, n =>
    if n < 10 then [digitChar n]
    else natToCharsAux fuel (n / 10) ++ [digitChar (n % 10)]

/-- Decimal representation of a natural number, as JavaScript string
interpolation renders a nonnegative integer. -/
def natToChars (n : Nat) : List Char := natToCharsAux (n + 1) n

/-- Decimal reading of a digit string. -/
def charsToNat (l : List Char) : Nat :=
  l.foldl (fun a c => 10 * a + digitVal c) 0

/-! ## The slugifier shared by `resolvePageKey` and `resolveOutputKey`

`value.toLowerCase().replace(/[^a-z0-9]+/g, "-").replace(/^-+|-+$/g, "")`. -/

/-- Replace every maximal run of non-`[a-z0-9]` characters by a single
hyphen.  The flag records whether we are inside such a run (so the hyphen
for it has already been emitted). -/
def collapseGo : Bool → List Char → List Char
  | _, [] => []
  | inRun, c :: rest =>
    if isSlugChar c then c :: collapseGo false rest
    else if inRun then collapseGo true rest
    else '-' :: collapseGo true rest

/-- Model of `.replace(/[^a-z0-9]+/g, "-")` on an already-lowercased string. -/
def collapseRuns (l : List Char) : List Char := collapseGo false l

/-- Model of `.replace(/^-+|-+$/g, "")`: drop leading and trailing hyphens. -/
def trimHyphens (l : List Char) : List Char :=
  ((l.dropWhile (· = '-')).reverse.dropWhile (· = '-')).reverse

/-- The whole slug pipeline used on path segments and hostnames. -/
def slugify (l : List Char) : List Char :=
  trimHyphens (collapseRuns (l.map lowerChar))

/-! ## URL model -/

/-- Parsed form of a hierarchical URL, the model of a WHATWG `URL` object
restricted to what the script consumes. -/
structure Url where
  scheme : List Char
  host : List Char
  port : Option Nat
  path : List Char
  query : Option (List Char)
  fragment : Option (List Char)
deriving DecidableEq, Repr

/-- Default port dropped from the serialisation, per special scheme. -/
def isDefaultPort (scheme : List Char) (p : Nat) : Bool :=
  (scheme = "http".data && p = 80) || (scheme = "https".data && p = 443)

/-- Tail of a list when it is nonempty; splits off a separator found by
`dropWhile`. -/
def optTail : List Char → Option (List Char)
  | [] => none
  | _ :: t => some t

/-- Authority splitting: `host[:port]`, with the port read as a decimal
number and a default port dropped.  Rejects userinfo and empty hosts. -/
def parseAuthority (scheme : List Char) (auth : List Char) :
    Option (List Char × Option Nat) :=
  if auth = [] then none
  else if '@' ∈ auth then none
  else
    match auth.dropWhile (· ≠ ':') with
    | [] =>
      some ((auth.takeWhile (· ≠ ':')).map lowerChar, none)
    | _ :: portChars =>
      if auth.takeWhile (· ≠ ':') = [] then none
      else if portChars = [] then none
      else if portChars.all isAsciiDigit then
        some ((auth.takeWhile (· ≠ ':')).map lowerChar,
          if isDefaultPort scheme (charsToNat portChars) then none
          else some (charsToNat portChars))
      else none

/-- Path component read from everything following the authority: the part
before the first `?` or `#`, with the empty path canonicalised to `/`. -/
def urlPathOf (afterAuth : List Char) : List Char :=
  if (afterAuth.takeWhile (· ≠ '#')).takeWhile (· ≠ '?') = [] then ['/']
  else (afterAuth.takeWhile (· ≠ '#')).takeWhile (· ≠ '?')

/-- Query component: the part strictly between the first `?` (outside the
fragment) and the fragment. -/
def urlQueryOf (afterAuth : List Char) : Option (List Char) :=
  optTail ((afterAuth.takeWhile (· ≠ '#')).dropWhile (· ≠ '?'))

/-- Fragment component: everything after the first `#`. -/
def urlFragOf (afterAuth : List Char) : Option (List Char) :=
  optTail (afterAuth.dropWhile (· ≠ '#'))

/-- Model of the WHATWG URL parser on an absolute hierarchical URL (see the
module comment for the documented simplifications). -/
def parseUrl (l : List Char) : Option Url :=
  if l.any wsChar then none
  else
    match l.dropWhile (· ≠ ':') with
    | [] => none
    | _ :: afterColon =>
      match l.takeWhile (· ≠ ':') with
      | [] => none
      | c0 :: cs =>
        if isAsciiAlpha c0 && (c0 :: cs).all schemeChar then
          match afterColon with
          | '/' :: '/' :: rest =>
            match parseAuthority ((c0 :: cs).map lowerChar)
                (rest.takeWhile (fun c => !stopChar c)) with
            | none => none
            | some (host, port) =>
              some ⟨(c0 :: cs).map lowerChar, host, port,
                urlPathOf (rest.dropWhile (fun c => !stopChar c)),
                urlQueryOf (rest.dropWhile (fun c => !stopChar c)),
                urlFragOf (rest.dropWhile (fun c => !stopChar c))⟩
          | _ => none
        else none

/-- Serialised port part: `:port` when a port is present. -/
def serPortPart : Option Nat → List Char
  | none => []
  | some p => ':' :: natToChars p

/-- Serialised query part: `?query` when a query is present. -/
def serQueryPart : Option (List Char) → List Char
  | none => []
  | some q => '?' :: q

/-- Serialised fragment part: `#fragment` when a fragment is present. -/
def serFragPart : Option (List Char) → List Char
  | none => []
  | some f => '#' :: f

/-- Canonical serialisation, the model of `URL.prototype.toString`. -/
def serializeUrl (u : Url) : List Char :=
  u.scheme ++ ':' :: '/' :: '/' :: u.host
    ++ serPortPart u.port ++ u.path ++ serQueryPart u.query ++ serFragPart u.fragment

/-- The scheme-detection regex `/^[a-zA-Z][a-zA-Z0-9+.-]*:/` of
`normalizeCaptureUrl`. -/
def schemeMark (l : List Char) : Bool :=
  match l with
  | [] => false
  | c :: rest =>
    isAsciiAlpha c &&
      (match rest.dropWhile schemeChar with
       | ':' :: _ => true
       | _ => false)

/-- `normalizeCaptureUrl` on character lists: trim, default the scheme to
`https`, parse, restrict to http/https, strip the fragment, serialise. -/
def normalizeCaptureUrlC (l : List Char) : Option (List Char) :=
  if trimChars l = [] then none
  else
    match parseUrl (if schemeMark (trimChars l) then trimChars l
        else "https://".data ++ trimChars l) with
    | none => none
    | some u =>
      if u.scheme = "http".data ∨ u.scheme = "https".data then
        some (serializeUrl { u with fragment := none })
      else none

/-- `normalizeCaptureUrl` at the `String` interface. -/
def normalizeCaptureUrl (s : String) : Option String :=
  (normalizeCaptureUrlC s.data).map String.mk

/-- Invariants satisfied by every `Url` produced by `parseUrl`; exactly what
is needed for the serialisation to parse back to the same value. -/
structure UrlWf0 (u : Url) : Prop where
  host_ne : u.host ≠ []
  host_stop : ∀ c ∈ u.host, stopChar c = false
  host_colon : ∀ c ∈ u.host, c ≠ ':'
  host_at : ∀ c ∈ u.host, c ≠ '@'
  host_ws : ∀ c ∈ u.host, wsChar c = false
  host_lower : ∀ c ∈ u.host, lowerChar c = c
  port_ok : ∀ p, u.port = some p → isDefaultPort u.scheme p = false
  path_head : u.path.head? = some '/'
  path_q : ∀ c ∈ u.path, c ≠ '?'
  path_hash : ∀ c ∈ u.path, c ≠ '#'
  path_ws : ∀ c ∈ u.path, wsChar c = false
  query_hash : ∀ q, u.query = some q → ∀ c ∈ q, c ≠ '#'
  query_ws : ∀ q, u.query = some q → ∀ c ∈ q, wsChar c = false
  frag_ws : ∀ f, u.fragment = some f → ∀ c ∈ f, wsChar c = false

/-! ## Output keys: `resolvePageKey` and `resolveOutputKey` -/

/-- `parsed.pathname.split("/").filter(Boolean)`. -/
def pathSegments (path : List Char) : List (List Char) :=
  (splitOnChar '/' path).filter (· ≠ [])

/-- `resolvePageKey` from the script, over a parsed URL: the slugified last
non-empty path segment, `home` when the path has no non-empty segment,
`page` when the slug is empty. -/
def resolvePageKey (u : Url) : List Char :=
  if slugify ((pathSegments u.path).getLast?.getD "home".data) = [] then "page".data
  else slugify ((pathSegments u.path).getLast?.getD "home".data)

/-- The slugified hostname used for the host-qualified key candidates. -/
def hostKeyOf (u : Url) : List Char := slugify u.host

/-- The candidate array built by `resolveOutputKey`:
`[pageKey, hostKey-pageKey, hostKey-pageKey-Date.now()]`. -/
def resolveCandidates (u : Url) (now : Nat) : List (List Char) :=
  [resolvePageKey u,
   hostKeyOf u ++ '-' :: resolvePageKey u,
   hostKeyOf u ++ '-' :: resolvePageKey u ++ '-' :: natToChars now]

/-- The numeric-suffix fallback `hostKey-pageKey-(seen.size + 1)` used when
all three candidates are taken. -/
def fallbackKeyFor (u : Url) (seen : List (List Char)) : List Char :=
  hostKeyOf u ++ '-' :: resolvePageKey u ++ '-' :: natToChars (seen.length + 1)

/-- `resolveOutputKey` from the script.  `now` models the `Date.now()` call;
`seen` models the shared `Set` (insertion-ordered, duplicate-free), and the
returned pair is the key together with the updated set.  Note the fallback
is added with `Set.add`, which is a no-op when the key is already present. -/
def resolveOutputKey (u : Url) (now : Nat) (seen : List (List Char)) :
    List Char × List (List Char) :=
  match (resolveCandidates u now).find? (fun c => !decide (c ∈ seen)) with
  | some c => (c, seen ++ [c])
  | none =>
    (fallbackKeyFor u seen,
      if fallbackKeyFor u seen ∈ seen then seen else seen ++ [fallbackKeyFor u seen])

/-- One run of key resolution: the script maps `resolveOutputKey` over the
target URLs with one shared `seen` set; the `Nat` component of each input
models that call's `Date.now()` value. -/
def resolveOutputKeys (seen : List (List Char)) : List (Url × Nat) → List (List Char)
  | [] => []
  | (u, tnow) :: rest =>
    (resolveOutputKey u tnow seen).1 ::
      resolveOutputKeys (resolveOutputKey u tnow seen).2 rest

/-- Freshness of the numeric fallback at every call that reaches it: when a
call finds all three primary candidates taken, its fallback key is required
not to be an already-used key. -/
def fallbackSafe (seen : List (List Char)) : List (Url × Nat) → Bool
  | [] => true
  | (u, tnow) :: rest =>
    ((resolveCandidates u tnow).any (fun c => !decide (c ∈ seen)) ||
      !decide (fallbackKeyFor u seen ∈ seen)) &&
    fallbackSafe (resolveOutputKey u tnow seen).2 rest

/-- URLs used by the key-collision counterexample: `https://h.ca<path>?<query>`. -/
def c3Url (path query : List Char) : Url :=
  ⟨"https".data, "h.ca".data, none, path, some query, none⟩

/-- Six pairwise-distinct URLs resolved in one run, all in the same
millisecond (`Date.now() = 1730000000000`).  The first four share the base
key `p`; the fifth occupies the key `h-ca-p-6`; the sixth call falls back to
`h-ca-p-(5+1)` which collides with it. -/
def c3Inputs : List (Url × Nat) :=
  [(c3Url "/p".data "a".data, 1730000000000),
   (c3Url "/p".data "b".data, 1730000000000),
   (c3Url "/p".data "c".data, 1730000000000),
   (c3Url "/p".data "d".data, 1730000000000),
   (c3Url "/h-ca-p-6".data "e".data, 1730000000000),
   (c3Url "/p".data "f".data, 1730000000000)]

/-! ## Crawl engine (`crawlTargets`) -/

/-- State of the crawl `while` loop: the FIFO `queue` of `(url, depth)`
pairs and the `discovered` list.  The script keeps an array and a mirror
`Set` that stay in sync, so one duplicate-free list models both. -/
structure CrawlState where
  queue : List (String × Nat)
  discovered : List String
deriving DecidableEq, Repr

/-- The inner `for (const link of links)` loop: skip links already
discovered, `break` when the page cap is reached, otherwise record the link
and enqueue it at the given depth.  Returns the discovered list and the
newly enqueued items. -/
def addLinks (maxPages nextDepth : Nat) :
    List String → List String → List String × List (String × Nat)
  | [], discovered => (discovered, [])
  | link :: rest, discovered =>
    if link ∈ discovered then addLinks maxPages nextDepth rest discovered
    else if maxPages ≤ discovered.length then (discovered, [])
    else
      ((addLinks maxPages nextDepth rest (discovered ++ [link])).1,
        (link, nextDepth) ::
          (addLinks maxPages nextDepth rest (discovered ++ [link])).2)

/-- One iteration of the crawl loop body on a non-empty queue.  The `fetch`
capability models `page.goto` followed by `collectLinksFromPage` (both are
browser-driver externals): `none` is a navigation failure, which the script
catches and skips; `some links` is the filtered in-page link list.  A node
at depth `≥ crawlDepth` is not expanded. -/
def crawlStep (fetch : String → Option (List String)) (crawlDepth maxPages : Nat)
    (s : CrawlState) : CrawlState :=
  match s.queue with
  | [] => s
  | (url, depth) :: rest =>
    match fetch url with
    | none => ⟨rest, s.discovered⟩
    | some links =>
      if crawlDepth ≤ depth then ⟨rest, s.discovered⟩
      else
        ⟨rest ++ (addLinks maxPages (depth + 1) links s.discovered).2,
          (addLinks maxPages (depth + 1) links s.discovered).1⟩

/-- The loop's stopping condition: `queue.length > 0 && size < maxPages`
negated. -/
def crawlFinal (maxPages : Nat) (s : CrawlState) : Prop :=
  s.queue = [] ∨ maxPages ≤ s.discovered.length

/-- The crawl `while` loop with explicit fuel; `crawlTargets` supplies
provably sufficient fuel. -/
def crawlLoop (fetch : String → Option (List String)) (crawlDepth maxPages : Nat) :
    Nat → CrawlState → CrawlState
  | 0, s => s
  | fuel + 1, s =>
    if s.queue = [] ∨ maxPages ≤ s.discovered.length then s
    else crawlLoop fetch crawlDepth maxPages fuel (crawlStep fetch crawlDepth maxPages s)

/-- Initial crawl state: every seed queued at depth 0 and the discovered
list pre-seeded with `uniqueOrdered(seedUrls)`. -/
def crawlInit (seedUrls : List String) : CrawlState :=
  ⟨seedUrls.map (fun u => (u, 0)), uniqueOrdered seedUrls⟩

/-- Fuel that provably outlasts the loop. -/
def crawlFuel (seedUrls : List String) (maxPages : Nat) : Nat :=
  seedUrls.length + 2 * maxPages + 1

/-- `crawlTargets` from the script: bounded breadth-first discovery with the
effective page cap `max settings.maxPages seedUrls.length`, returning the
discovered list (seeds included, discovery order). -/
def crawlTargets (fetch : String → Option (List String)) (seedUrls : List String)
    (crawlDepth maxPages : Nat) : List String :=
  (crawlLoop fetch crawlDepth (max maxPages seedUrls.length)
    (crawlFuel seedUrls (max maxPages seedUrls.length))
    (crawlInit seedUrls)).discovered

/-- URLs reachable from some seed in at most `n` link hops through the
fetch capability. -/
def reachN (fetch : String → Option (List String)) (seedUrls : List String) :
    Nat → List String
  | 0 => seedUrls
  | n + 1 =>
    reachN fetch seedUrls n ++
      (reachN fetch seedUrls n).flatMap (fun u => (fetch u).getD [])

/-- Loop invariant of the crawl: the discovered list is duplicate-free,
within the cap, extends the deduplicated seed list, and everything queued or
discovered is reachable within the depth bound. -/
def CrawlInv (fetch : String → Option (List String)) (seedUrls : List String)
    (crawlDepth maxPages : Nat) (s : CrawlState) : Prop :=
  s.discovered.Nodup ∧
  s.discovered.length ≤ maxPages ∧
  (∃ t, s.discovered = uniqueOrdered seedUrls ++ t) ∧
  (∀ p ∈ s.queue, p.2 ≤ crawlDepth ∧ p.1 ∈ reachN fetch seedUrls p.2) ∧
  (∀ u ∈ s.discovered, u ∈ reachN fetch seedUrls crawlDepth)

/-- Termination measure of the crawl loop. -/
def crawlMeasure (maxPages : Nat) (s : CrawlState) : Nat :=
  s.queue.length + 2 * (maxPages - s.discovered.length)

/-! ## Scroll stabilisation (`triggerDeferredContent`) -/

/-- `DEFAULT_FULLLOAD_STABLE_ROUNDS` from the script. -/
def DEFAULT_FULLLOAD_STABLE_ROUNDS : Nat := 3

/-- `DEFAULT_FULLLOAD_MAX_ROUNDS` from the script. -/
def DEFAULT_FULLLOAD_MAX_ROUNDS : Nat := 36

/-- The end-of-round bookkeeping of the in-page scroll script: compare the
newly read height with the recorded maximum; within the 2px tolerance the
stable-round counter increments, otherwise it resets and the maximum is
updated. -/
def scrollObserve (maxSeen stable h : Nat) : Nat × Nat :=
  if h ≤ maxSeen + 2 then (maxSeen, stable + 1) else (h, 0)

/-- The `for (round …)` loop of `triggerDeferredContent`, with the height
readings abstracted into the oracle `h` (`h (i+1)` is the reading that ends
round `i`; the per-step scrolling only affects the scroll position, not this
bookkeeping).  Returns executed rounds, final maximum and final counter.
The fuel argument is structural only; `triggerDeferredContent` passes
`maxRounds`, which is exactly enough. -/
def scrollLoop (h : Nat → Nat) (maxRounds stop : Nat) :
    Nat → Nat → Nat → Nat → Nat × Nat × Nat
  | 0, round, maxSeen, stable => (round, maxSeen, stable)
  | fuel + 1, round, maxSeen, stable =>
    if maxRounds ≤ round then (round, maxSeen, stable)
    else
      if stop ≤ (scrollObserve maxSeen stable (h (round + 1))).2 then
        (round + 1, scrollObserve maxSeen stable (h (round + 1)))
      else
        scrollLoop h maxRounds stop fuel (round + 1)
          (scrollObserve maxSeen stable (h (round + 1))).1
          (scrollObserve maxSeen stable (h (round + 1))).2

/-- The scroll-stabilisation loop of `triggerDeferredContent`: initial
maximum `h 0` (the first `readHeight()`), initial counter 0, round cap 36,
stable-round threshold 3. -/
def triggerDeferredContent (h : Nat → Nat) : Nat × Nat × Nat :=
  scrollLoop h DEFAULT_FULLLOAD_MAX_ROUNDS DEFAULT_FULLLOAD_STABLE_ROUNDS
    DEFAULT_FULLLOAD_MAX_ROUNDS 0 (h 0) 0

/-- Modelled from the spec's design note: the explicit small state machine
(observed-max, consecutive-stable-count) fed the same height readings but
never stopping, used to characterise when the loop stops early. -/
def scrollStateSpec (h : Nat → Nat) : Nat → Nat × Nat
  | 0 => (h 0, 0)
  | n + 1 => scrollObserve (scrollStateSpec h n).1 (scrollStateSpec h n).2 (h (n + 1))

/-! ## Text extraction (`extractUrlsFromText`)

The three candidate passes of `extractUrlsFromText`: the `https?://token`
regex, the markdown-link regex, and the bare-domain line test.  The regex
scans are modelled by fueled left-to-right scanners with the standard
resume-after-match semantics of a global JavaScript regex; `wsChar` models
the class `\s` (a documented simplification to the common whitespace
characters, as everywhere in this file). -/

/-- A character that ends a plain `https?://` token: whitespace or one of
the six delimiters of the regex class (codes 60, 62, 34, 39, 96, 41). -/
def urlStopChar (c : Char) : Bool :=
  wsChar c || c.toNat = 60 || c.toNat = 62 || c.toNat = 34 || c.toNat = 39 ||
    c.toNat = 96 || c.toNat = 41

/-- Case-insensitive pattern strip: if the input starts with `pat` up to
ASCII case, return the matched original prefix and the remainder. -/
def stripCI : List Char → List Char → Option (List Char × List Char)
  | [], s => some ([], s)
  | _ :: _, [] => none
  | p :: ps, c :: cs =>
    if lowerChar c = p then
      match stripCI ps cs with
      | none => none
      | some (m, r) => some (c :: m, r)
    else none

/-- Match `https?://` case-insensitively at the head of the input, as the
regex engine does: the greedy `s?` first, then without the `s`. -/
def matchHttpAt (s : List Char) : Option (List Char × List Char) :=
  match stripCI ("https://".data) s with
  | some r => some r
  | none => stripCI ("http://".data) s

/-- The scan of the first pass: at each position try `https?://` followed by
a greedy (possibly empty) run of non-stop characters; on a match resume
after it, otherwise advance one character.  Fuel bounds the walk. -/
def scanHttp : Nat → List Char → List (List Char)
  | 0, _ => []
  | _ + 1, [] => []
  | fuel + 1, c :: cs =>
    match matchHttpAt (c :: cs) with
    | some (m, r) =>
      (m ++ r.takeWhile (fun x => !urlStopChar x)) ::
        scanHttp fuel (r.dropWhile (fun x => !urlStopChar x))
    | none => scanHttp fuel cs

/-- The trailing-punctuation class of `trimUrlPunctuation` (codes 41, 44,
46, 59, i.e. closing parenthesis, comma, dot, semicolon). -/
def punctChar (c : Char) : Bool :=
  c.toNat = 41 || c.toNat = 44 || c.toNat = 46 || c.toNat = 59

/-- `trimUrlPunctuation`: strip the maximal trailing punctuation run, then
trim whitespace. -/
def trimUrlPunct (l : List Char) : List Char :=
  trimChars ((l.reverse.dropWhile punctChar).reverse)

/-- A character allowed in the target of a markdown link, the regex class
excluding whitespace and the closing parenthesis. -/
def mdBodyChar (c : Char) : Bool :=
  !wsChar c && c.toNat ≠ 41

/-- Attempt the markdown-link pattern right after an opening bracket: a
label without a closing bracket, the closing bracket, an opening
parenthesis, a case-insensitive `https?://`, a nonempty run of body
characters and the closing parenthesis.  Returns the captured target and
the rest of the input. -/
def mdTryAt (cs : List Char) : Option (List Char × List Char) :=
  match cs.dropWhile (fun c => c.toNat ≠ 93) with
  | ']' :: '(' :: r2 =>
    match matchHttpAt r2 with
    | some (m, r3) =>
      match r3.takeWhile mdBodyChar, r3.dropWhile mdBodyChar with
      | [], _ => none
      | body, ')' :: r4 => some (m ++ body, r4)
      | _, _ => none
    | none => none
  | _ => none

/-- The scan of the second pass over the whole content. -/
def scanMd : Nat → List Char → List (List Char)
  | 0, _ => []
  | _ + 1, [] => []
  | fuel + 1, c :: cs =>
    if c = '[' then
      match mdTryAt cs with
      | some (cand, rest) => cand :: scanMd fuel rest
      | none => scanMd fuel cs
    else scanMd fuel cs

/-- First pass: `https?://` tokens, trimmed, the empty ones dropped. -/
def passOne (s : List Char) : List (List Char) :=
  ((scanHttp s.length s).map trimUrlPunct).filter (fun c => !c.isEmpty)

/-- Second pass: markdown-link targets, trimmed, the empty ones dropped. -/
def passTwo (s : List Char) : List (List Char) :=
  ((scanMd s.length s).map trimUrlPunct).filter (fun c => !c.isEmpty)

/-- Remove the carriage return a split on the newline character leaves at
the end of a line, as splitting on the regex CR-optional-LF does. -/
def dropCR (l : List Char) : List Char :=
  if l.getLast? = some '\r' then l.dropLast else l

/-- A JavaScript line terminator, which the dot of a regex in unicode mode
does not match (codes 10, 13, 8232, 8233). -/
def lineTermChar (c : Char) : Bool :=
  c.toNat = 10 || c.toNat = 13 || c.toNat = 8232 || c.toNat = 8233

/-- The domain-label class of the bare-domain regex: ASCII letters, digits,
dot and hyphen. -/
def domChar (c : Char) : Bool :=
  isAsciiAlpha c || isAsciiDigit c || c.toNat = 46 || c.toNat = 45

/-- The optional tail of the bare-domain regex: empty, or a slash, colon,
question mark or hash followed by characters the dot matches. -/
def bareTailOk : List Char → Bool
  | [] => true
  | c :: rest =>
    (c.toNat = 47 || c.toNat = 58 || c.toNat = 63 || c.toNat = 35) &&
      rest.all (fun x => !lineTermChar x)

/-- The bare-domain line test: the maximal domain-class prefix must split at
its last dot into a nonempty part and an all-alphabetic suffix of length at
least two, and what follows must be an acceptable tail.  (The split at the
last dot is the one decomposition the anchored regex admits, since the
alphabetic suffix can contain no dot and must run to the tail.) -/
def bareDomainOk (s : List Char) : Bool :=
  bareTailOk (s.dropWhile domChar) &&
  decide (2 ≤ ((s.takeWhile domChar).reverse.takeWhile (fun c => c.toNat ≠ 46)).length) &&
  ((s.takeWhile domChar).reverse.takeWhile (fun c => c.toNat ≠ 46)).all isAsciiAlpha &&
  (match (s.takeWhile domChar).reverse.dropWhile (fun c => c.toNat ≠ 46) with
   | _ :: _ :: _ => true
   | _ => false)

/-- Third pass: trimmed lines that contain no space and no at sign and pass
the bare-domain test. -/
def passThree (s : List Char) : List (List Char) :=
  ((splitOnChar '\n' s).map (fun l => trimChars (dropCR l))).filter
    (fun c => !c.isEmpty && c.all (fun x => x.toNat ≠ 32) &&
      c.all (fun x => x.toNat ≠ 64) && bareDomainOk c)

/-- The raw candidate set of `extractUrlsFromText`, in insertion order (a
JavaScript `Set` keeps first-insertion order across the three passes). -/
def extractCandidates (s : List Char) : List (List Char) :=
  uniqueOrdered (passOne s ++ passTwo s ++ passThree s)

/-- `extractUrlsFromText` on character lists: normalize each candidate,
silently dropping the failures, and deduplicate the results. -/
def extractUrlsFromTextC (s : List Char) : List (List Char) :=
  uniqueOrdered ((extractCandidates s).filterMap normalizeCaptureUrlC)

/-- `extractUrlsFromText` at the `String` interface. -/
def extractUrlsFromText (s : String) : List String :=
  (extractUrlsFromTextC s.data).map String.mk

/-- Spec-modelled: the position of the first occurrence of `pat` as a
substring of `s` (the order of first occurrence in the text, which the
specification says the output follows). -/
def firstIndexOfSub (pat : List Char) : List Char → Option Nat :=
  go 0
where
  /-- Walk the text, reporting the first index where `pat` begins. -/
  go : Nat → List Char → Option Nat
  | i, [] => if startsWithC [] pat then some i else none
  | i, c :: rest =>
    if startsWithC (c :: rest) pat then some i else go (i + 1) rest

/-! ## CLI parsing (`parseCliArguments`)

The option record and the argument loop, with the branch order of the
source.  `path.resolve(process.cwd(), value)` is modelled as the value
itself and the scale is an exact rational (documented simplifications);
numeric parsing models `Number.parseInt(value, 10)` and
`Number.parseFloat` on their plain decimal forms, `none` standing for a
non-finite result. -/

structure CaptureCliOptions where
  positionalUrls : List String
  urlFiles : List String
  outputDir : String
  crawl : Bool
  crawlDepth : Int
  sameOriginOnly : Bool
  maxPages : Int
  timeoutMs : Int
  scale : Rat
  excludeClasses : List String
  excludeIds : List String
  help : Bool
deriving Repr, DecidableEq

/-- The initial option record, with the default values of the source
constants. -/
def defaultCliOptions : CaptureCliOptions where
  positionalUrls := []
  urlFiles := []
  outputDir := "screenshot-output"
  crawl := false
  crawlDepth := 1
  sameOriginOnly := true
  maxPages := 50
  timeoutMs := 60000
  scale := 2
  excludeClasses := []
  excludeIds := []
  help := false

/-- The maximal leading digit run as a number, `none` when there is no
digit (`parseInt` returns NaN then). -/
def parseIntDigits (l : List Char) : Option Nat :=
  if l.takeWhile isAsciiDigit = [] then none
  else some (charsToNat (l.takeWhile isAsciiDigit))

/-- `Number.parseInt(value, 10)`: leading whitespace, an optional sign and
the maximal decimal digit run. -/
def parseIntJS (l : List Char) : Option Int :=
  match l.dropWhile wsChar with
  | '-' :: r => (parseIntDigits r).map (fun n => -(n : Int))
  | '+' :: r => (parseIntDigits r).map (fun n => (n : Int))
  | r => (parseIntDigits r).map (fun n => (n : Int))

/-- The unsigned part of `parseFloat`: digits with an optional decimal
point (exponents are not modelled). -/
def parseFloatMag (l : List Char) : Option Rat :=
  match l.takeWhile isAsciiDigit, l.dropWhile isAsciiDigit with
  | ip, '.' :: r2 =>
    if ip = [] ∧ r2.takeWhile isAsciiDigit = [] then none
    else some ((charsToNat ip : Rat) +
      (charsToNat (r2.takeWhile isAsciiDigit) : Rat) /
        (10 : Rat) ^ (r2.takeWhile isAsciiDigit).length)
  | ip, _ => if ip = [] then none else some (charsToNat ip : Rat)

/-- `Number.parseFloat`: leading whitespace, an optional sign and a plain
decimal number. -/
def parseFloatJS (l : List Char) : Option Rat :=
  match l.dropWhile wsChar with
  | '-' :: r => (parseFloatMag r).map (fun q => -q)
  | '+' :: r => parseFloatMag r
  | r => parseFloatMag r

/-- `splitCommaList`: split on commas, trim each item, drop the blanks. -/
def splitCommaList (s : String) : List String :=
  (((splitOnChar ',' s.data).map trimChars).filter (fun c => !c.isEmpty)).map
    String.mk

/-- The inline value of a flag token: everything after the first equals
sign, `none` when the token has no equals sign. -/
def inlineValue (arg : List Char) : Option (List Char) :=
  match arg.dropWhile (fun c => c.toNat ≠ 61) with
  | _ :: t => some t
  | [] => none

/-- The next-argument fallback of `readValue`: a missing, empty or
double-dash next argument is an error. -/
def nextValue (flagName : String) (rest : List String) :
    Except String (String × List String) :=
  match rest with
  | [] => Except.error ("Missing value for " ++ flagName)
  | next :: rest2 =>
    if next = "" ∨ startsWithC next.data ('-' :: '-' :: []) then
      Except.error ("Missing value for " ++ flagName)
    else Except.ok (next, rest2)

/-- `readValue`: a nonempty inline value wins, otherwise the next
argument. -/
def readValue (arg : String) (flagName : String) (rest : List String) :
    Except String (String × List String) :=
  match inlineValue arg.data with
  | some (c :: t) => Except.ok (String.mk (c :: t), rest)
  | _ => nextValue flagName rest

/-- One iteration of the argument loop of `parseCliArguments`, with the
exact branch order and error messages of the source: the options after the
leading argument, and the arguments still to process. -/
def parseCliStep (arg : String) (rest : List String)
    (opts : CaptureCliOptions) :
    Except String (CaptureCliOptions × List String) :=
    if arg = "--help" ∨ arg = "-h" then
      Except.ok ({ opts with help := true }, rest)
    else if !startsWithC arg.data ('-' :: '-' :: []) then
      Except.ok
        ({ opts with positionalUrls := opts.positionalUrls ++ [arg] }, rest)
    else if arg = "--crawl" then
      Except.ok ({ opts with crawl := true }, rest)
    else if arg = "--no-crawl" then
      Except.ok ({ opts with crawl := false }, rest)
    else if arg = "--same-origin-only" then
      Except.ok ({ opts with sameOriginOnly := true }, rest)
    else if startsWithC arg.data ("--same-origin-only=".data) then
      if (trimChars (arg.data.drop 19)).map lowerChar = "true".data then
        Except.ok ({ opts with sameOriginOnly := true }, rest)
      else if (trimChars (arg.data.drop 19)).map lowerChar = "false".data then
        Except.ok ({ opts with sameOriginOnly := false }, rest)
      else
        Except.error ("Invalid --same-origin-only value: " ++
          String.mk ((trimChars (arg.data.drop 19)).map lowerChar) ++
          ". Use true, false, or --no-same-origin-only.")
    else if arg = "--no-same-origin-only" then
      Except.ok ({ opts with sameOriginOnly := false }, rest)
    else if startsWithC arg.data ("--url-file".data) then
      match readValue arg "--url-file" rest with
      | Except.error e => Except.error e
      | Except.ok (v, rest2) =>
        Except.ok ({ opts with urlFiles := opts.urlFiles ++ [v] }, rest2)
    else if startsWithC arg.data ("--output-dir".data) ||
        startsWithC arg.data ("--output".data) then
      match readValue arg
          (if startsWithC arg.data ("--output-dir".data) then "--output-dir"
           else "--output") rest with
      | Except.error e => Except.error e
      | Except.ok (v, rest2) =>
        Except.ok ({ opts with outputDir := v }, rest2)
    else if startsWithC arg.data ("--crawl-depth".data) then
      match readValue arg "--crawl-depth" rest with
      | Except.error e => Except.error e
      | Except.ok (v, rest2) =>
        match parseIntJS v.data with
        | none => Except.error ("Invalid --crawl-depth value: " ++ v)
        | some n =>
          if n < 0 then Except.error ("Invalid --crawl-depth value: " ++ v)
          else Except.ok ({ opts with crawlDepth := n }, rest2)
    else if startsWithC arg.data ("--max-pages".data) then
      match readValue arg "--max-pages" rest with
      | Except.error e => Except.error e
      | Except.ok (v, rest2) =>
        match parseIntJS v.data with
        | none => Except.error ("Invalid --max-pages value: " ++ v)
        | some n =>
          if n < 1 then Except.error ("Invalid --max-pages value: " ++ v)
          else Except.ok ({ opts with maxPages := n }, rest2)
    else if startsWithC arg.data ("--timeout-ms".data) then
      match readValue arg "--timeout-ms" rest with
      | Except.error e => Except.error e
      | Except.ok (v, rest2) =>
        match parseIntJS v.data with
        | none =>
          Except.error ("Invalid --timeout-ms value: " ++ v ++
            ". Expected >= 5000.")
        | some n =>
          if n < 5000 then
            Except.error ("Invalid --timeout-ms value: " ++ v ++
              ". Expected >= 5000.")
          else Except.ok ({ opts with timeoutMs := n }, rest2)
    else if startsWithC arg.data ("--scale".data) then
      match readValue arg "--scale" rest with
      | Except.error e => Except.error e
      | Except.ok (v, rest2) =>
        match parseFloatJS v.data with
        | none => Except.error ("Invalid --scale value: " ++ v)
        | some q =>
          if q ≤ 0 then Except.error ("Invalid --scale value: " ++ v)
          else Except.ok ({ opts with scale := q }, rest2)
    else if startsWithC arg.data ("--exclude-class".data) then
      match readValue arg "--exclude-class" rest with
      | Except.error e => Except.error e
      | Except.ok (v, rest2) =>
        Except.ok
          ({ opts with excludeClasses := opts.excludeClasses ++ splitCommaList v },
            rest2)
    else if startsWithC arg.data ("--exclude-id".data) then
      match readValue arg "--exclude-id" rest with
      | Except.error e => Except.error e
      | Except.ok (v, rest2) =>
        Except.ok
          ({ opts with excludeIds := opts.excludeIds ++ splitCommaList v },
            rest2)
    else if startsWithC arg.data ("--mode".data) then
      match readValue arg "--mode" rest with
      | Except.error e => Except.error e
      | Except.ok (v, rest2) =>
        if v ≠ "full" then
          Except.error "Only full-page mode is supported. Remove --mode=segments."
        else Except.ok (opts, rest2)
    else if arg = "--segments" then
      Except.error
        "Segmented mode is no longer supported. Use default full-page capture."
    else
      Except.error ("Unknown option: " ++ arg)

/-- The argument loop: apply `parseCliStep` until the arguments run out.
The fuel dominates the argument count; every step consumes at least one
argument. -/
def parseCliLoop : Nat → List String → CaptureCliOptions →
    Except String CaptureCliOptions
  | _, [], opts => Except.ok opts
  | 0, _ :: _, opts => Except.ok opts
  | fuel + 1, arg :: rest, opts =>
    match parseCliStep arg rest opts with
    | Except.error e => Except.error e
    | Except.ok (opts2, rest2) => parseCliLoop fuel rest2 opts2

/-- `parseCliArguments`: run the loop on the full argument vector. -/
def parseCliArguments (argv : List String) : Except String CaptureCliOptions :=
  parseCliLoop argv.length argv defaultCliOptions

/-! ## List and character lemmas -/

theorem takeWhile_append_stop (p : Char → Bool) (a : List Char) (x : Char) (b : List Char)
    (ha : ∀ c ∈ a, p c = true) (hx : p x = false) :
    (a ++ x :: b).takeWhile p = a := by
  induction a with
  | nil => simp [List.takeWhile_cons, hx]
  | cons c cs ih =>
    simp only [List.cons_append, List.takeWhile_cons, ha c (List.mem_cons_self c cs),
      if_true, List.cons.injEq, true_and]
    exact ih fun d hd => ha d (List.mem_cons_of_mem c hd)

theorem dropWhile_append_stop (p : Char → Bool) (a : List Char) (x : Char) (b : List Char)
    (ha : ∀ c ∈ a, p c = true) (hx : p x = false) :
    (a ++ x :: b).dropWhile p = x :: b := by
  induction a with
  | nil => simp [List.dropWhile_cons, hx]
  | cons c cs ih =>
    simp only [List.cons_append, List.dropWhile_cons, ha c (List.mem_cons_self c cs), if_true]
    exact ih fun d hd => ha d (List.mem_cons_of_mem c hd)

theorem takeWhile_all (p : Char → Bool) (l : List Char) (h : ∀ c ∈ l, p c = true) :
    l.takeWhile p = l := by
  induction l with
  | nil => rfl
  | cons c cs ih =>
    simp only [List.takeWhile_cons, h c (List.mem_cons_self c cs), if_true,
      List.cons.injEq, true_and]
    exact ih fun d hd => h d (List.mem_cons_of_mem c hd)

theorem dropWhile_all (p : Char → Bool) (l : List Char) (h : ∀ c ∈ l, p c = true) :
    l.dropWhile p = [] := by
  induction l with
  | nil => rfl
  | cons c cs ih =>
    simp only [List.dropWhile_cons, h c (List.mem_cons_self c cs), if_true]
    exact ih fun d hd => h d (List.mem_cons_of_mem c hd)

theorem dropWhile_none (p : Char → Bool) (l : List Char) (h : ∀ c ∈ l, p c = false) :
    l.dropWhile p = l := by
  cases l with
  | nil => rfl
  | cons c cs => simp [List.dropWhile_cons, h c (List.mem_cons_self c cs)]

theorem dropWhile_head_false (p : Char → Bool) (l : List Char) (c : Char) (r : List Char)
    (h : l.dropWhile p = c :: r) : p c = false := by
  induction l with
  | nil => simp [List.dropWhile] at h
  | cons d ds ih =>
    rw [List.dropWhile_cons] at h
    by_cases hd : p d
    · rw [if_pos hd] at h; exact ih h
    · rw [if_neg hd] at h
      injection h with h1 _
      subst h1
      exact Bool.eq_false_iff.mpr hd

theorem takeWhile_head (p : Char → Bool) (l : List Char) (c : Char) (r : List Char)
    (h : l.takeWhile p = c :: r) : l.head? = some c ∧ p c = true := by
  cases l with
  | nil => simp [List.takeWhile] at h
  | cons d ds =>
    rw [List.takeWhile_cons] at h
    by_cases hd : p d
    · rw [if_pos hd] at h
      injection h with h1 _
      subst h1
      exact ⟨rfl, hd⟩
    · rw [if_neg hd] at h; exact absurd h (by simp)

theorem map_id_of_mem {f : Char → Char} (l : List Char) (h : ∀ c ∈ l, f c = c) :
    l.map f = l := by
  induction l with
  | nil => rfl
  | cons c cs ih =>
    simp only [List.map_cons, h c (List.mem_cons_self c cs), List.cons.injEq, true_and]
    exact ih fun d hd => h d (List.mem_cons_of_mem c hd)

theorem trimChars_eq_self (l : List Char) (h : ∀ c ∈ l, wsChar c = false) :
    trimChars l = l := by
  unfold trimChars
  rw [dropWhile_none _ _ h, dropWhile_none, List.reverse_reverse]
  intro c hc
  exact h c (List.mem_reverse.mp hc)

theorem any_ws_false_iff (l : List Char) :
    l.any wsChar = false ↔ ∀ c ∈ l, wsChar c = false := by
  rw [List.any_eq_false]
  constructor
  · intro h c hc; exact Bool.eq_false_iff.mpr (h c hc)
  · intro h c hc; exact Bool.eq_false_iff.mp (h c hc)

theorem char_ne_of_toNat_ne {c d : Char} (h : c.toNat ≠ d.toNat) : c ≠ d :=
  fun he => h (he ▸ rfl)

/-! ### `lowerChar` facts -/

theorem toNat_lowerChar_of_upper (c : Char) (h : 65 ≤ c.toNat ∧ c.toNat ≤ 90) :
    (lowerChar c).toNat = c.toNat + 32 := by
  unfold lowerChar
  rw [if_pos h]
  obtain ⟨h1, h2⟩ := h
  set n := c.toNat with hn
  interval_cases n <;> decide

theorem lowerChar_eq_self_of_not_upper (c : Char) (h : ¬(65 ≤ c.toNat ∧ c.toNat ≤ 90)) :
    lowerChar c = c := by
  unfold lowerChar
  rw [if_neg h]

theorem lowerChar_cases (c : Char) :
    lowerChar c = c ∨ (97 ≤ (lowerChar c).toNat ∧ (lowerChar c).toNat ≤ 122) := by
  by_cases h : 65 ≤ c.toNat ∧ c.toNat ≤ 90
  · right
    rw [toNat_lowerChar_of_upper c h]
    omega
  · left
    exact lowerChar_eq_self_of_not_upper c h

theorem lowerChar_idem (c : Char) : lowerChar (lowerChar c) = lowerChar c := by
  by_cases h : 65 ≤ c.toNat ∧ c.toNat ≤ 90
  · apply lowerChar_eq_self_of_not_upper
    rw [toNat_lowerChar_of_upper c h]
    omega
  · rw [lowerChar_eq_self_of_not_upper c h, lowerChar_eq_self_of_not_upper c h]

theorem lowerChar_ne_low (c x : Char) (hx : x.toNat < 97 ∨ 122 < x.toNat)
    (hc : c ≠ x) : lowerChar c ≠ x := by
  rcases lowerChar_cases c with h | h
  · rw [h]; exact hc
  · apply char_ne_of_toNat_ne
    omega

theorem wsChar_toNat (c : Char) (h : wsChar c = true) : c.toNat ≤ 32 := by
  simp only [wsChar, Bool.or_eq_true, decide_eq_true_eq] at h
  rcases h with ((h | h) | h) | h <;> subst h <;> decide

theorem wsChar_lowerChar (c : Char) (h : wsChar c = false) :
    wsChar (lowerChar c) = false := by
  rcases lowerChar_cases c with he | he
  · rw [he]; exact h
  · by_contra hw
    have := wsChar_toNat (lowerChar c) (Bool.not_eq_false _ |>.mp hw)
    omega

theorem stopChar_lowerChar (c : Char) (h : stopChar c = false) :
    stopChar (lowerChar c) = false := by
  rcases lowerChar_cases c with he | he
  · rw [he]; exact h
  · simp only [stopChar, Bool.or_eq_false_iff, decide_eq_false_iff_not]
    obtain ⟨h1, h2⟩ := he
    have e1 : '/'.toNat = 47 := by decide
    have e2 : '?'.toNat = 63 := by decide
    have e3 : '#'.toNat = 35 := by decide
    refine ⟨⟨?_, ?_⟩, ?_⟩ <;> apply char_ne_of_toNat_ne <;> omega

/-! ### Decimal digit lemmas -/

theorem toNat_digitChar (d : Nat) (h : d < 10) : (digitChar d).toNat = 48 + d := by
  interval_cases d <;> decide

theorem digitVal_digitChar (d : Nat) (h : d < 10) : digitVal (digitChar d) = d := by
  unfold digitVal
  rw [toNat_digitChar d h]
  omega

theorem isAsciiDigit_digitChar (d : Nat) (h : d < 10) : isAsciiDigit (digitChar d) = true := by
  simp only [isAsciiDigit, Bool.and_eq_true, decide_eq_true_eq]
  rw [toNat_digitChar d h]
  omega

theorem isAsciiDigit_toNat (c : Char) (h : isAsciiDigit c = true) :
    48 ≤ c.toNat ∧ c.toNat ≤ 57 := by
  simpa only [isAsciiDigit, Bool.and_eq_true, decide_eq_true_eq] using h

theorem charsToNat_append_digit (a : List Char) (c : Char) :
    charsToNat (a ++ [c]) = 10 * charsToNat a + digitVal c := by
  simp [charsToNat, List.foldl_append]

theorem natToCharsAux_spec (fuel : Nat) :
    ∀ n, n < fuel →
      natToCharsAux fuel n ≠ [] ∧
      (∀ c ∈ natToCharsAux fuel n, isAsciiDigit c = true) ∧
      charsToNat (natToCharsAux fuel n) = n := by
  induction fuel with
  | zero => intro n h; omega
  | succ fuel ih =>
    intro n h
    by_cases hn : n < 10
    · rw [natToCharsAux, if_pos hn]
      refine ⟨by simp, ?_, ?_⟩
      · intro c hc
        rw [List.mem_singleton] at hc
        subst hc
        exact isAsciiDigit_digitChar n hn
      · simp [charsToNat, digitVal_digitChar n hn]
    · rw [natToCharsAux, if_neg hn]
      have hdiv : n / 10 < fuel := by omega
      obtain ⟨hne, hdig, hval⟩ := ih (n / 10) hdiv
      refine ⟨by simp, ?_, ?_⟩
      · intro c hc
        rcases List.mem_append.mp hc with hc | hc
        · exact hdig c hc
        · rw [List.mem_singleton] at hc
          subst hc
          exact isAsciiDigit_digitChar (n % 10) (Nat.mod_lt n (by omega))
      · rw [charsToNat_append_digit, hval, digitVal_digitChar (n % 10) (Nat.mod_lt n (by omega))]
        omega

theorem natToChars_ne_nil (n : Nat) : natToChars n ≠ [] :=
  (natToCharsAux_spec (n + 1) n (Nat.lt_succ_self n)).1

theorem natToChars_digits (n : Nat) : ∀ c ∈ natToChars n, isAsciiDigit c = true :=
  (natToCharsAux_spec (n + 1) n (Nat.lt_succ_self n)).2.1

theorem charsToNat_natToChars (n : Nat) : charsToNat (natToChars n) = n :=
  (natToCharsAux_spec (n + 1) n (Nat.lt_succ_self n)).2.2

theorem digit_facts (c : Char) (h : isAsciiDigit c = true) :
    c ≠ ':' ∧ c ≠ '@' ∧ stopChar c = false ∧ wsChar c = false := by
  obtain ⟨h1, h2⟩ := isAsciiDigit_toNat c h
  have e1 : ':'.toNat = 58 := by decide
  have e2 : '@'.toNat = 64 := by decide
  have e3 : '/'.toNat = 47 := by decide
  have e4 : '?'.toNat = 63 := by decide
  have e5 : '#'.toNat = 35 := by decide
  refine ⟨char_ne_of_toNat_ne (by omega), char_ne_of_toNat_ne (by omega), ?_, ?_⟩
  · simp only [stopChar, Bool.or_eq_false_iff, decide_eq_false_iff_not]
    exact ⟨⟨char_ne_of_toNat_ne (by omega), char_ne_of_toNat_ne (by omega)⟩,
      char_ne_of_toNat_ne (by omega)⟩
  · by_contra hw
    have := wsChar_toNat c (Bool.not_eq_false _ |>.mp hw)
    omega

/-! ### Structure of successful parses -/

theorem optTail_some (l t : List Char) (h : optTail l = some t) : ∃ x, l = x :: t := by
  cases l with
  | nil => cases h
  | cons x r =>
    refine ⟨x, ?_⟩
    simp only [optTail, Option.some.injEq] at h
    rw [h]

theorem parseAuthority_wf (scheme auth host : List Char) (port : Option Nat)
    (h : parseAuthority scheme auth = some (host, port)) :
    host = (auth.takeWhile (· ≠ ':')).map lowerChar ∧ auth ≠ [] ∧ '@' ∉ auth ∧
      auth.takeWhile (· ≠ ':') ≠ [] ∧
      ∀ p, port = some p → isDefaultPort scheme p = false := by
  unfold parseAuthority at h
  by_cases hne : auth = []
  · rw [if_pos hne] at h; cases h
  rw [if_neg hne] at h
  by_cases hat : '@' ∈ auth
  · rw [if_pos hat] at h; cases h
  rw [if_neg hat] at h
  split at h
  · rename_i hdrop
    simp only [Option.some.injEq, Prod.mk.injEq] at h
    have htk : auth.takeWhile (· ≠ ':') = auth := by
      have := List.takeWhile_append_dropWhile (p := fun x => decide (x ≠ ':')) (l := auth)
      rw [hdrop, List.append_nil] at this
      exact this
    refine ⟨h.1.symm, hne, hat, by rw [htk]; exact hne, ?_⟩
    intro p hp
    rw [← h.2] at hp
    cases hp
  · split at h
    · cases h
    · rename_i hrh
      split at h
      · cases h
      split at h
      · simp only [Option.some.injEq, Prod.mk.injEq] at h
        refine ⟨h.1.symm, hne, hat, hrh, ?_⟩
        intro p hp
        rw [← h.2] at hp
        split at hp
        · cases hp
        · rename_i hdef
          injection hp with hp
          rw [← hp]
          exact Bool.eq_false_iff.mpr hdef
      · cases h

theorem head?_eq_some (l : List Char) (c : Char) (h : l.head? = some c) :
    ∃ r, l = c :: r := by
  cases l with
  | nil => cases h
  | cons d r =>
    injection h with h
    exact ⟨r, by rw [h]⟩

theorem urlPathOf_head (a : List Char)
    (hstop : ∀ c r, a = c :: r → stopChar c = true) :
    (urlPathOf a).head? = some '/' := by
  unfold urlPathOf
  split
  · rfl
  · rename_i hne
    obtain ⟨c, r, hcr⟩ : ∃ c r, (a.takeWhile (· ≠ '#')).takeWhile (· ≠ '?') = c :: r := by
      cases hx : (a.takeWhile (· ≠ '#')).takeWhile (· ≠ '?') with
      | nil => exact absurd hx hne
      | cons c r => exact ⟨c, r, rfl⟩
    rw [hcr]
    obtain ⟨hh1, hq⟩ := takeWhile_head _ _ _ _ hcr
    obtain ⟨r2, hr2⟩ := head?_eq_some _ _ hh1
    obtain ⟨hh2, hhash⟩ := takeWhile_head _ _ _ _ hr2
    obtain ⟨r3, hr3⟩ := head?_eq_some _ _ hh2
    have hsc := hstop c r3 hr3
    have hc : c = '/' := by
      simp only [stopChar, Bool.or_eq_true, decide_eq_true_eq] at hsc
      rcases hsc with (hh | hh) | hh
      · exact hh
      · exact absurd hh (by simpa using hq)
      · exact absurd hh (by simpa using hhash)
    rw [hc]
    rfl

theorem urlPathOf_mem (a : List Char) (c : Char) (h : c ∈ urlPathOf a) :
    c = '/' ∨ (c ∈ a ∧ c ≠ '?' ∧ c ≠ '#') := by
  unfold urlPathOf at h
  split at h
  · left
    simpa using h
  · right
    have hq : c ≠ '?' := by simpa using List.mem_takeWhile_imp h
    have h2 : c ∈ a.takeWhile (· ≠ '#') := (List.takeWhile_sublist _).mem h
    have hhash : c ≠ '#' := by simpa using List.mem_takeWhile_imp h2
    exact ⟨(List.takeWhile_sublist _).mem h2, hq, hhash⟩

theorem urlQueryOf_mem (a q : List Char) (hq : urlQueryOf a = some q) :
    ∀ c ∈ q, c ∈ a ∧ c ≠ '#' := by
  obtain ⟨x, hx⟩ := optTail_some _ _ hq
  intro c hc
  have h1 : c ∈ (a.takeWhile (· ≠ '#')).dropWhile (· ≠ '?') := by
    rw [hx]
    exact List.mem_cons_of_mem x hc
  have h2 : c ∈ a.takeWhile (· ≠ '#') := (List.dropWhile_sublist _).mem h1
  exact ⟨(List.takeWhile_sublist _).mem h2, by simpa using List.mem_takeWhile_imp h2⟩

theorem urlFragOf_mem (a f : List Char) (hf : urlFragOf a = some f) :
    ∀ c ∈ f, c ∈ a := by
  obtain ⟨x, hx⟩ := optTail_some _ _ hf
  intro c hc
  have h1 : c ∈ a.dropWhile (· ≠ '#') := by
    rw [hx]
    exact List.mem_cons_of_mem x hc
  exact (List.dropWhile_sublist _).mem h1

theorem parseUrl_wf (l : List Char) (u : Url) (h : parseUrl l = some u) : UrlWf0 u := by
  unfold parseUrl at h
  by_cases hws : l.any wsChar = true
  · rw [if_pos hws] at h; cases h
  rw [if_neg hws] at h
  have hwsAll : ∀ c ∈ l, wsChar c = false :=
    (any_ws_false_iff l).mp (Bool.eq_false_iff.mpr hws)
  split at h
  · cases h
  rename_i x afterColon hdc
  split at h
  · cases h
  rename_i c0 cs htc
  split at h
  · split at h
    · rename_i afterColon2 rest
      split at h
      · cases h
      rename_i scrut host port hpa
      injection h with h
      subst h
      obtain ⟨hhost_eq, hauth_ne, hat, hrawhost_ne, hport⟩ :=
        parseAuthority_wf _ _ _ _ hpa
      have hrest_l : ∀ c ∈ rest, c ∈ l := by
        intro c hc
        have h1 : c ∈ l.dropWhile (· ≠ ':') := by
          rw [hdc]
          exact List.mem_cons_of_mem _ (List.mem_cons_of_mem _ (List.mem_cons_of_mem _ hc))
        exact (List.dropWhile_sublist _).mem h1
      have hauth_facts : ∀ c ∈ rest.takeWhile (fun d => !stopChar d),
          c ∈ l ∧ stopChar c = false ∧ c ≠ '@' := by
        intro c hc
        refine ⟨hrest_l c ((List.takeWhile_sublist _).mem hc), ?_, ?_⟩
        · have := List.mem_takeWhile_imp hc
          simpa using this
        · intro he
          exact hat (he ▸ hc)
      have hafter_stop : ∀ c r', rest.dropWhile (fun d => !stopChar d) = c :: r' →
          stopChar c = true := by
        intro c r' hcr
        have := dropWhile_head_false _ _ _ _ hcr
        simpa using this
      have hafter_l : ∀ c ∈ rest.dropWhile (fun d => !stopChar d), c ∈ l := by
        intro c hc
        exact hrest_l c ((List.dropWhile_sublist _).mem hc)
      have hhost_facts : ∀ c ∈ host,
          stopChar c = false ∧ c ≠ ':' ∧ c ≠ '@' ∧ wsChar c = false ∧ lowerChar c = c := by
        intro c hc
        rw [hhost_eq] at hc
        obtain ⟨c0', hc0, hmap⟩ := List.mem_map.mp hc
        have hc0auth : c0' ∈ rest.takeWhile (fun d => !stopChar d) :=
          (List.takeWhile_sublist _).mem hc0
        obtain ⟨hmem_l, hstop0, hat0⟩ := hauth_facts c0' hc0auth
        have hcolon0 : c0' ≠ ':' := by simpa using List.mem_takeWhile_imp hc0
        subst hmap
        refine ⟨stopChar_lowerChar _ hstop0, ?_, ?_, wsChar_lowerChar _ (hwsAll _ hmem_l),
          lowerChar_idem _⟩
        · exact lowerChar_ne_low _ _ (Or.inl (by decide)) hcolon0
        · exact lowerChar_ne_low _ _ (Or.inl (by decide)) hat0
      refine
        { host_ne := ?_, host_stop := fun c hc => (hhost_facts c hc).1,
          host_colon := fun c hc => (hhost_facts c hc).2.1,
          host_at := fun c hc => (hhost_facts c hc).2.2.1,
          host_ws := fun c hc => (hhost_facts c hc).2.2.2.1,
          host_lower := fun c hc => (hhost_facts c hc).2.2.2.2,
          port_ok := hport, path_head := urlPathOf_head _ hafter_stop,
          path_q := ?_, path_hash := ?_, path_ws := ?_,
          query_hash := ?_, query_ws := ?_, frag_ws := ?_ }
      · rw [hhost_eq]
        simpa using hrawhost_ne
      · intro c hc
        rcases urlPathOf_mem _ _ hc with hc | hc
        · subst hc; decide
        · exact hc.2.1
      · intro c hc
        rcases urlPathOf_mem _ _ hc with hc | hc
        · subst hc; decide
        · exact hc.2.2
      · intro c hc
        rcases urlPathOf_mem _ _ hc with hc | hc
        · subst hc; decide
        · exact hwsAll c (hafter_l c hc.1)
      · intro q hq c hc
        exact (urlQueryOf_mem _ _ hq c hc).2
      · intro q hq c hc
        exact hwsAll c (hafter_l c (urlQueryOf_mem _ _ hq c hc).1)
      · intro f hf c hc
        exact hwsAll c (hafter_l c (urlFragOf_mem _ _ hf c hc))
    · cases h
  · cases h

/-! ### The serialisation parses back to the same URL -/

theorem parseAuthority_roundtrip (scheme host : List Char) (port : Option Nat)
    (hne : host ≠ []) (hcol : ∀ c ∈ host, c ≠ ':') (hat : ∀ c ∈ host, c ≠ '@')
    (hlower : ∀ c ∈ host, lowerChar c = c)
    (hdef : ∀ p, port = some p → isDefaultPort scheme p = false) :
    parseAuthority scheme (host ++ serPortPart port) = some (host, port) := by
  cases port with
  | none =>
    rw [serPortPart, List.append_nil]
    unfold parseAuthority
    rw [if_neg hne, if_neg (fun hmem => hat '@' hmem rfl)]
    have hdw : host.dropWhile (· ≠ ':') = [] :=
      dropWhile_all _ _ fun c hc => decide_eq_true (hcol c hc)
    have htw : host.takeWhile (· ≠ ':') = host :=
      takeWhile_all _ _ fun c hc => decide_eq_true (hcol c hc)
    rw [hdw, htw, map_id_of_mem host hlower]
  | some p =>
    rw [serPortPart]
    unfold parseAuthority
    have hane : host ++ ':' :: natToChars p ≠ [] := by simp
    have hanat : '@' ∉ host ++ ':' :: natToChars p := by
      intro hmem
      rcases List.mem_append.mp hmem with hmem | hmem
      · exact hat '@' hmem rfl
      · rcases List.mem_cons.mp hmem with hmem | hmem
        · cases hmem
        · exact absurd rfl (digit_facts '@' (natToChars_digits p '@' hmem)).2.1
    rw [if_neg hane, if_neg hanat]
    have hdw : (host ++ ':' :: natToChars p).dropWhile (· ≠ ':') = ':' :: natToChars p :=
      dropWhile_append_stop _ _ _ _ (fun c hc => decide_eq_true (hcol c hc)) (by decide)
    have htw : (host ++ ':' :: natToChars p).takeWhile (· ≠ ':') = host :=
      takeWhile_append_stop _ _ _ _ (fun c hc => decide_eq_true (hcol c hc)) (by decide)
    rw [htw, hdw]
    show (if host = [] then none
      else if natToChars p = [] then none
      else if (natToChars p).all isAsciiDigit then
        some (host.map lowerChar,
          if isDefaultPort scheme (charsToNat (natToChars p)) then none
          else some (charsToNat (natToChars p)))
      else none) = some (host, some p)
    rw [if_neg hne, if_neg (natToChars_ne_nil p),
      if_pos (List.all_eq_true.mpr fun c hc => natToChars_digits p c hc),
      charsToNat_natToChars, if_neg (by rw [hdef p rfl]; exact fun hh => absurd hh (by simp)),
      map_id_of_mem host hlower]

theorem urlParts_roundtrip (path : List Char) (query : Option (List Char))
    (hhead : path.head? = some '/') (hq : ∀ c ∈ path, c ≠ '?')
    (hhash : ∀ c ∈ path, c ≠ '#')
    (hquery_hash : ∀ q, query = some q → ∀ c ∈ q, c ≠ '#') :
    urlPathOf (path ++ serQueryPart query) = path ∧
    urlQueryOf (path ++ serQueryPart query) = query ∧
    urlFragOf (path ++ serQueryPart query) = none := by
  have hpne : path ≠ [] := by
    intro hp
    rw [hp] at hhead
    cases hhead
  cases query with
  | none =>
    rw [serQueryPart, List.append_nil]
    have htw1 : path.takeWhile (· ≠ '#') = path :=
      takeWhile_all _ _ fun c hc => decide_eq_true (hhash c hc)
    have hdw1 : path.dropWhile (· ≠ '#') = [] :=
      dropWhile_all _ _ fun c hc => decide_eq_true (hhash c hc)
    have htw2 : path.takeWhile (· ≠ '?') = path :=
      takeWhile_all _ _ fun c hc => decide_eq_true (hq c hc)
    have hdw2 : path.dropWhile (· ≠ '?') = [] :=
      dropWhile_all _ _ fun c hc => decide_eq_true (hq c hc)
    refine ⟨?_, ?_, ?_⟩
    · unfold urlPathOf
      rw [htw1, htw2, if_neg hpne]
    · unfold urlQueryOf
      rw [htw1, hdw2]
      rfl
    · unfold urlFragOf
      rw [hdw1]
      rfl
  | some q =>
    rw [serQueryPart]
    have hnohash : ∀ c ∈ path ++ '?' :: q, (c ≠ '#' : Prop) := by
      intro c hc
      rcases List.mem_append.mp hc with hc | hc
      · exact hhash c hc
      · rcases List.mem_cons.mp hc with hc | hc
        · subst hc; decide
        · exact hquery_hash q rfl c hc
    have htw1 : (path ++ '?' :: q).takeWhile (· ≠ '#') = path ++ '?' :: q :=
      takeWhile_all _ _ fun c hc => decide_eq_true (hnohash c hc)
    have hdw1 : (path ++ '?' :: q).dropWhile (· ≠ '#') = [] :=
      dropWhile_all _ _ fun c hc => decide_eq_true (hnohash c hc)
    have htw2 : (path ++ '?' :: q).takeWhile (· ≠ '?') = path :=
      takeWhile_append_stop _ _ _ _ (fun c hc => decide_eq_true (hq c hc)) (by decide)
    have hdw2 : (path ++ '?' :: q).dropWhile (· ≠ '?') = '?' :: q :=
      dropWhile_append_stop _ _ _ _ (fun c hc => decide_eq_true (hq c hc)) (by decide)
    refine ⟨?_, ?_, ?_⟩
    · unfold urlPathOf
      rw [htw1, htw2, if_neg hpne]
    · unfold urlQueryOf
      rw [htw1, hdw2]
      rfl
    · unfold urlFragOf
      rw [hdw1]
      rfl

theorem parseUrl_eval (c0 : Char) (cs rest hl : List Char)
    (hok : (isAsciiAlpha c0 && (c0 :: cs).all schemeChar) = true)
    (hwseq : hl.any wsChar = false)
    (htw : hl.takeWhile (· ≠ ':') = c0 :: cs)
    (hdw : hl.dropWhile (· ≠ ':') = ':' :: '/' :: '/' :: rest) :
    parseUrl hl =
      match parseAuthority ((c0 :: cs).map lowerChar)
          (rest.takeWhile (fun c => !stopChar c)) with
      | none => none
      | some (host, port) =>
        some ⟨(c0 :: cs).map lowerChar, host, port,
          urlPathOf (rest.dropWhile (fun c => !stopChar c)),
          urlQueryOf (rest.dropWhile (fun c => !stopChar c)),
          urlFragOf (rest.dropWhile (fun c => !stopChar c))⟩ := by
  unfold parseUrl
  rw [hwseq, hdw, htw]
  show (if (isAsciiAlpha c0 && (c0 :: cs).all schemeChar) = true then
      match parseAuthority ((c0 :: cs).map lowerChar)
          (rest.takeWhile (fun c => !stopChar c)) with
      | none => none
      | some (host, port) =>
        some (Url.mk ((c0 :: cs).map lowerChar) host port
          (urlPathOf (rest.dropWhile (fun c => !stopChar c)))
          (urlQueryOf (rest.dropWhile (fun c => !stopChar c)))
          (urlFragOf (rest.dropWhile (fun c => !stopChar c))))
    else none) =
    (match parseAuthority ((c0 :: cs).map lowerChar)
        (rest.takeWhile (fun c => !stopChar c)) with
    | none => none
    | some (host, port) =>
      some (Url.mk ((c0 :: cs).map lowerChar) host port
        (urlPathOf (rest.dropWhile (fun c => !stopChar c)))
        (urlQueryOf (rest.dropWhile (fun c => !stopChar c)))
        (urlFragOf (rest.dropWhile (fun c => !stopChar c)))))
  rw [hok]
  rfl

theorem parseUrl_serializeUrl_aux (u : Url) (hwf : UrlWf0 u) (hf : u.fragment = none)
    (c0 : Char) (cs : List Char) (hsch : u.scheme = c0 :: cs)
    (hok : (isAsciiAlpha c0 && (c0 :: cs).all schemeChar) = true)
    (hlow : (c0 :: cs).map lowerChar = c0 :: cs)
    (hcol : ∀ c ∈ c0 :: cs, c ≠ ':')
    (hschws : ∀ c ∈ c0 :: cs, wsChar c = false) :
    parseUrl (serializeUrl u) = some u := by
  obtain ⟨pathTail, hpath⟩ := head?_eq_some _ _ hwf.path_head
  have hser : serializeUrl u =
      (c0 :: cs) ++ ':' :: '/' :: '/' ::
        ((u.host ++ serPortPart u.port) ++
          '/' :: (pathTail ++ serQueryPart u.query)) := by
    rw [serializeUrl, hf, hsch, hpath]
    simp [serFragPart, List.append_assoc, List.cons_append, List.append_nil]
  have hPfacts : ∀ c ∈ serPortPart u.port,
      stopChar c = false ∧ wsChar c = false := by
    cases hpo : u.port with
    | none => simp [serPortPart]
    | some p =>
      intro c hc
      simp only [serPortPart, List.mem_cons] at hc
      rcases hc with hc | hc
      · subst hc
        exact ⟨by decide, by decide⟩
      · obtain ⟨_, _, hstop, hws⟩ := digit_facts c (natToChars_digits p c hc)
        exact ⟨hstop, hws⟩
  have hQfacts : ∀ c ∈ serQueryPart u.query,
      wsChar c = false := by
    cases hqo : u.query with
    | none => simp [serQueryPart]
    | some q =>
      intro c hc
      simp only [serQueryPart, List.mem_cons] at hc
      rcases hc with hc | hc
      · subst hc; decide
      · exact hwf.query_ws q hqo c hc
  have hAfacts : ∀ c ∈ u.host ++ serPortPart u.port,
      (!stopChar c) = true := by
    intro c hc
    rcases List.mem_append.mp hc with hc | hc
    · simp [hwf.host_stop c hc]
    · simp [(hPfacts c hc).1]
  have hwseq : (serializeUrl u).any wsChar = false := by
    rw [any_ws_false_iff]
    intro c hc
    rw [hser] at hc
    rcases List.mem_append.mp hc with hc | hc
    · exact hschws c hc
    rcases List.mem_cons.mp hc with hc | hc
    · subst hc; decide
    rcases List.mem_cons.mp hc with hc | hc
    · subst hc; decide
    rcases List.mem_cons.mp hc with hc | hc
    · subst hc; decide
    rcases List.mem_append.mp hc with hc | hc
    · rcases List.mem_append.mp hc with hc | hc
      · exact hwf.host_ws c hc
      · exact (hPfacts c hc).2
    rcases List.mem_cons.mp hc with hc | hc
    · subst hc; decide
    rcases List.mem_append.mp hc with hc | hc
    · exact hwf.path_ws c (by rw [hpath]; exact List.mem_cons_of_mem _ hc)
    · exact hQfacts c hc
  have htw0 : (serializeUrl u).takeWhile (· ≠ ':') = c0 :: cs := by
    rw [hser]
    exact takeWhile_append_stop _ _ _ _ (fun c hc => decide_eq_true (hcol c hc)) (by decide)
  have hdw0 : (serializeUrl u).dropWhile (· ≠ ':') =
      ':' :: '/' :: '/' ::
        ((u.host ++ serPortPart u.port) ++
          '/' :: (pathTail ++ serQueryPart u.query)) := by
    rw [hser]
    exact dropWhile_append_stop _ _ _ _ (fun c hc => decide_eq_true (hcol c hc)) (by decide)
  rw [parseUrl_eval c0 cs _ _ hok hwseq htw0 hdw0]
  have htwA : ((u.host ++ serPortPart u.port) ++
          '/' :: (pathTail ++ serQueryPart u.query)).takeWhile (fun c => !stopChar c) =
      u.host ++ serPortPart u.port :=
    takeWhile_append_stop _ _ _ _ hAfacts (by decide)
  have hdwA : ((u.host ++ serPortPart u.port) ++
          '/' :: (pathTail ++ serQueryPart u.query)).dropWhile (fun c => !stopChar c) =
      '/' :: (pathTail ++ serQueryPart u.query) :=
    dropWhile_append_stop _ _ _ _ hAfacts (by decide)
  rw [htwA, hdwA, hlow]
  have hafter : '/' :: (pathTail ++ serQueryPart u.query) =
      u.path ++ serQueryPart u.query := by
    rw [hpath]
    rfl
  rw [hafter]
  have hpa : parseAuthority (c0 :: cs) (u.host ++ serPortPart u.port) =
      some (u.host, u.port) :=
    parseAuthority_roundtrip _ _ _ hwf.host_ne hwf.host_colon hwf.host_at hwf.host_lower
      (by rw [← hsch]; exact hwf.port_ok)
  rw [hpa]
  obtain ⟨hp1, hp2, hp3⟩ := urlParts_roundtrip u.path u.query hwf.path_head hwf.path_q
    hwf.path_hash hwf.query_hash
  show some ⟨c0 :: cs, u.host, u.port,
      urlPathOf (u.path ++ serQueryPart u.query),
      urlQueryOf (u.path ++ serQueryPart u.query),
      urlFragOf (u.path ++ serQueryPart u.query)⟩ = some u
  rw [hp1, hp2, hp3, ← hsch, ← hf]

theorem parseUrl_serializeUrl (u : Url) (hwf : UrlWf0 u)
    (hs : u.scheme = "http".data ∨ u.scheme = "https".data) (hf : u.fragment = none) :
    parseUrl (serializeUrl u) = some u := by
  rcases hs with hs | hs
  · exact parseUrl_serializeUrl_aux u hwf hf 'h' ['t', 't', 'p'] (by rw [hs])
      (by decide) (by decide) (by decide) (by decide)
  · exact parseUrl_serializeUrl_aux u hwf hf 'h' ['t', 't', 'p', 's'] (by rw [hs])
      (by decide) (by decide) (by decide) (by decide)

/-! ### Idempotence of `normalizeCaptureUrl` -/

theorem UrlWf0_clearFragment (u : Url) (h : UrlWf0 u) :
    UrlWf0 { u with fragment := none } := by
  refine
    { host_ne := h.host_ne, host_stop := h.host_stop, host_colon := h.host_colon,
      host_at := h.host_at, host_ws := h.host_ws, host_lower := h.host_lower,
      port_ok := h.port_ok, path_head := h.path_head, path_q := h.path_q,
      path_hash := h.path_hash, path_ws := h.path_ws, query_hash := h.query_hash,
      query_ws := h.query_ws, frag_ws := ?_ }
  intro f hf
  cases hf

theorem serPortPart_facts (port : Option Nat) :
    ∀ c ∈ serPortPart port, stopChar c = false ∧ wsChar c = false := by
  cases port with
  | none => simp [serPortPart]
  | some p =>
    intro c hc
    simp only [serPortPart, List.mem_cons] at hc
    rcases hc with hc | hc
    · subst hc
      exact ⟨by decide, by decide⟩
    · obtain ⟨_, _, hstop, hws⟩ := digit_facts c (natToChars_digits p c hc)
      exact ⟨hstop, hws⟩

theorem serializeUrl_ws_free (u : Url) (hwf : UrlWf0 u) (hf : u.fragment = none)
    (hschws : ∀ c ∈ u.scheme, wsChar c = false) :
    ∀ c ∈ serializeUrl u, wsChar c = false := by
  intro c hc
  unfold serializeUrl at hc
  rw [hf] at hc
  simp only [serFragPart, List.append_nil, List.mem_append, List.mem_cons] at hc
  rcases hc with (((hc | (hc | hc | hc | hc)) | hc) | hc) | hc
  · exact hschws c hc
  · subst hc; decide
  · subst hc; decide
  · subst hc; decide
  · exact hwf.host_ws c hc
  · exact (serPortPart_facts u.port c hc).2
  · exact hwf.path_ws c hc
  · cases hq : u.query with
    | none => rw [hq] at hc; simp [serQueryPart] at hc
    | some q =>
      rw [hq] at hc
      simp only [serQueryPart, List.mem_cons] at hc
      rcases hc with hc | hc
      · subst hc; decide
      · exact hwf.query_ws q hq c hc

theorem serializeUrl_ne_nil (u : Url) : serializeUrl u ≠ [] := by
  unfold serializeUrl
  simp

theorem schemeMark_serialize (u : Url)
    (hs : u.scheme = "http".data ∨ u.scheme = "https".data) :
    schemeMark (serializeUrl u) = true := by
  unfold serializeUrl
  rcases hs with hs | hs <;> rw [hs] <;> rfl

theorem normalizeCaptureUrlC_idem (l t : List Char)
    (h : normalizeCaptureUrlC l = some t) : normalizeCaptureUrlC t = some t := by
  unfold normalizeCaptureUrlC at h
  by_cases htr : trimChars l = []
  · rw [if_pos htr] at h; cases h
  rw [if_neg htr] at h
  split at h
  · cases h
  · rename_i u hp
    split at h
    · rename_i hsch
      injection h with h
      have hwf' := UrlWf0_clearFragment u (parseUrl_wf _ _ hp)
      have hs' : ({ u with fragment := none } : Url).scheme = "http".data ∨
          ({ u with fragment := none } : Url).scheme = "https".data := hsch
      have hschws : ∀ c ∈ ({ u with fragment := none } : Url).scheme, wsChar c = false := by
        rcases hsch with hx | hx
        · have hx' : ({ u with fragment := none } : Url).scheme = "http".data := hx
          rw [hx']
          decide
        · have hx' : ({ u with fragment := none } : Url).scheme = "https".data := hx
          rw [hx']
          decide
      have hwsfree : ∀ c ∈ t, wsChar c = false := by
        rw [← h]
        exact serializeUrl_ws_free _ hwf' rfl hschws
      have htne : ¬ t = [] := by
        rw [← h]
        exact serializeUrl_ne_nil _
      have hmark : schemeMark t = true := by
        rw [← h]
        exact schemeMark_serialize _ hs'
      have hparse : parseUrl t = some { u with fragment := none } := by
        rw [← h]
        exact parseUrl_serializeUrl _ hwf' hs' rfl
      have htrim : trimChars t = t := trimChars_eq_self t hwsfree
      unfold normalizeCaptureUrlC
      rw [htrim, if_neg htne, if_pos hmark, hparse]
      show (if ({ u with fragment := none } : Url).scheme = "http".data ∨
          ({ u with fragment := none } : Url).scheme = "https".data then
        some (serializeUrl { ({ u with fragment := none } : Url) with fragment := none })
      else none) = some t
      rw [if_pos hs']
      exact congrArg some h
    · cases h

/-- C4: `normalizeCaptureUrl` is idempotent: whenever normalization succeeds
on an input string, normalizing the result again succeeds and returns the
same string, i.e. `normalize(normalize(s)) = normalize(s)`. -/
theorem normalizeCaptureUrl_idempotent (s t : String)
    (h : normalizeCaptureUrl s = some t) : normalizeCaptureUrl t = some t := by
  unfold normalizeCaptureUrl at h ⊢
  cases hc : normalizeCaptureUrlC s.data with
  | none => rw [hc] at h; cases h
  | some lc =>
    rw [hc] at h
    simp only [Option.map_some'] at h
    injection h with h
    have hdat : t.data = lc := by rw [← h]
    rw [hdat, normalizeCaptureUrlC_idem s.data lc hc, Option.map_some']
    rw [← h]

/-- Witness for C4 at the repository's own test input
`membershealth.ca/programs#intro`. -/
theorem normalizeCaptureUrl_idempotent_witness :
    normalizeCaptureUrl "membershealth.ca/programs#intro" =
      some "https://membershealth.ca/programs" ∧
    normalizeCaptureUrl "https://membershealth.ca/programs" =
      some "https://membershealth.ca/programs" :=
  ⟨by decide,
    normalizeCaptureUrl_idempotent "membershealth.ca/programs#intro"
      "https://membershealth.ca/programs" (by decide)⟩

/-! ### Slug lemmas and `resolvePageKey` invariants -/

theorem mem_collapseGo (l : List Char) :
    ∀ b c, c ∈ collapseGo b l → isSlugChar c = true ∨ c = '-' := by
  induction l with
  | nil => intro b c h; simp [collapseGo] at h
  | cons d rest ih =>
    intro b c h
    simp only [collapseGo] at h
    split at h
    · rcases List.mem_cons.mp h with h | h
      · left; subst h; assumption
      · exact ih _ _ h
    · split at h
      · exact ih _ _ h
      · rcases List.mem_cons.mp h with h | h
        · right; exact h
        · exact ih _ _ h

theorem mem_trimHyphens (l : List Char) (c : Char) (h : c ∈ trimHyphens l) : c ∈ l := by
  unfold trimHyphens at h
  rw [List.mem_reverse] at h
  have h2 := (List.dropWhile_sublist _).mem h
  rw [List.mem_reverse] at h2
  exact (List.dropWhile_sublist _).mem h2

theorem trimHyphens_last (l : List Char) (c : Char)
    (h : (trimHyphens l).getLast? = some c) : c ≠ '-' := by
  unfold trimHyphens at h
  rw [List.getLast?_reverse] at h
  obtain ⟨r, hr⟩ := head?_eq_some _ _ h
  have := dropWhile_head_false _ _ _ _ hr
  simpa using this

theorem trimHyphens_head (l : List Char) (c : Char)
    (h : (trimHyphens l).head? = some c) : c ≠ '-' := by
  unfold trimHyphens at h
  rw [List.head?_reverse] at h
  have hBne : (l.dropWhile (· = '-')).reverse.dropWhile (· = '-') ≠ [] := by
    intro hB
    rw [hB] at h
    cases h
  have hsplit := List.takeWhile_append_dropWhile
    (p := fun c => decide (c = '-')) (l := (l.dropWhile (· = '-')).reverse)
  have hlast : (l.dropWhile (· = '-')).reverse.getLast? = some c := by
    rw [← hsplit, List.getLast?_append_of_ne_nil _ hBne]
    exact h
  rw [List.getLast?_reverse] at hlast
  obtain ⟨r, hr⟩ := head?_eq_some _ _ hlast
  have := dropWhile_head_false _ _ _ _ hr
  simpa using this

theorem slugify_chars (l : List Char) :
    ∀ c ∈ slugify l, isSlugChar c = true ∨ c = '-' := by
  intro c hc
  exact mem_collapseGo _ false c (mem_trimHyphens _ c hc)

/-- C10: for every URL accepted by the parser model, `resolvePageKey`
returns a non-empty string over lowercase letters, digits and hyphens, with
no leading or trailing hyphen; it is the slug of the last non-empty path
segment, `home` when there is no such segment, and `page` when the slug
comes out empty. -/
theorem resolvePageKey_spec (u : Url) :
    resolvePageKey u ≠ [] ∧
    (∀ c ∈ resolvePageKey u, isSlugChar c = true ∨ c = '-') ∧
    (∀ c, (resolvePageKey u).head? = some c → c ≠ '-') ∧
    (∀ c, (resolvePageKey u).getLast? = some c → c ≠ '-') ∧
    (pathSegments u.path = [] → resolvePageKey u = "home".data) ∧
    (∀ seg, (pathSegments u.path).getLast? = some seg →
      resolvePageKey u = (if slugify seg = [] then "page".data else slugify seg)) := by
  refine ⟨?_, ?_, ?_, ?_, ?_, ?_⟩
  · unfold resolvePageKey
    split
    · decide
    · assumption
  · intro c hc
    unfold resolvePageKey at hc
    split at hc
    · rcases List.mem_cons.mp hc with hc | hc
      · subst hc; left; decide
      rcases List.mem_cons.mp hc with hc | hc
      · subst hc; left; decide
      rcases List.mem_cons.mp hc with hc | hc
      · subst hc; left; decide
      rcases List.mem_cons.mp hc with hc | hc
      · subst hc; left; decide
      · simp at hc
    · exact slugify_chars _ c hc
  · intro c hc
    unfold resolvePageKey at hc
    split at hc
    · injection hc with hc
      subst hc
      decide
    · exact trimHyphens_head _ c hc
  · intro c hc
    unfold resolvePageKey at hc
    split at hc
    · rw [show ("page".data : List Char).getLast? = some 'e' from rfl] at hc
      injection hc with hc
      subst hc
      decide
    · exact trimHyphens_last _ c hc
  · intro hseg
    unfold resolvePageKey
    rw [hseg]
    decide
  · intro seg hseg
    unfold resolvePageKey
    rw [hseg]
    rfl

/-! ### Output-key uniqueness -/

theorem resolveOutputKey_fresh (u : Url) (tnow : Nat) (seen : List (List Char))
    (hsafe : ((resolveCandidates u tnow).any (fun c => !decide (c ∈ seen)) ||
      !decide (fallbackKeyFor u seen ∈ seen)) = true) :
    (resolveOutputKey u tnow seen).1 ∉ seen ∧
    (resolveOutputKey u tnow seen).2 = seen ++ [(resolveOutputKey u tnow seen).1] := by
  unfold resolveOutputKey
  cases hfind : (resolveCandidates u tnow).find? (fun c => !decide (c ∈ seen)) with
  | some c =>
    have hc := List.find?_some hfind
    simp only [Bool.not_eq_true', decide_eq_false_iff_not] at hc
    exact ⟨hc, rfl⟩
  | none =>
    have hall : ∀ c ∈ resolveCandidates u tnow, c ∈ seen := by
      intro c hc
      have := List.find?_eq_none.mp hfind c hc
      simpa using this
    have hnofind : ¬ (resolveCandidates u tnow).any (fun c => !decide (c ∈ seen)) = true := by
      simp only [List.any_eq_true, not_exists]
      intro c hmem
      have hcon := hmem.2
      simp [hall c hmem.1] at hcon
    have hfb : fallbackKeyFor u seen ∉ seen := by
      have hx : (resolveCandidates u tnow).any (fun c => !decide (c ∈ seen)) = false :=
        Bool.eq_false_iff.mpr hnofind
      rw [hx, Bool.false_or] at hsafe
      simpa using hsafe
    rw [if_neg hfb]
    exact ⟨hfb, rfl⟩

theorem resolveOutputKeys_nodup_aux (inputs : List (Url × Nat)) :
    ∀ seen, fallbackSafe seen inputs = true →
      (resolveOutputKeys seen inputs).Nodup ∧
      ∀ k ∈ resolveOutputKeys seen inputs, k ∉ seen := by
  induction inputs with
  | nil =>
    intro seen _
    exact ⟨List.nodup_nil, by simp [resolveOutputKeys]⟩
  | cons p rest ih =>
    intro seen hsafe
    obtain ⟨u, tnow⟩ := p
    rw [fallbackSafe, Bool.and_eq_true] at hsafe
    obtain ⟨hsafe1, hsafe2⟩ := hsafe
    obtain ⟨hfresh, hseen'⟩ := resolveOutputKey_fresh u tnow seen hsafe1
    obtain ⟨hnodup, hnotin⟩ := ih _ hsafe2
    rw [resolveOutputKeys]
    constructor
    · rw [List.nodup_cons]
      refine ⟨?_, hnodup⟩
      intro hmem
      have := hnotin _ hmem
      rw [hseen'] at this
      exact this (List.mem_append_right seen (List.mem_singleton_self _))
    · intro k hk
      rcases List.mem_cons.mp hk with hk | hk
      · subst hk; exact hfresh
      · intro hkseen
        exact hnotin k hk (hseen' ▸ List.mem_append_left _ hkseen)

/-- C3 counterexample: the script's own key resolver returns the same key
twice within one run, on six pairwise-distinct input URLs resolved in the
same millisecond: the numeric-suffix fallback `h-ca-p-6` of the sixth call
collides with the page key of the fifth.  The claim, as stated, is false. -/
theorem resolveOutputKeys_repeat_counterexample :
    ¬ (resolveOutputKeys [] c3Inputs).Nodup ∧ (c3Inputs.map Prod.fst).Nodup := by
  decide

/-- C3 amended: within one run starting from an empty `seen` set, the
resolver never returns the same key twice provided every call that exhausts
its three primary candidates has a fresh numeric-suffix fallback
(`fallbackSafe`); the first call whose base key is unused receives the
unescaped base key. -/
theorem resolveOutputKeys_distinct (inputs : List (Url × Nat))
    (hsafe : fallbackSafe [] inputs = true) :
    (resolveOutputKeys [] inputs).Nodup ∧
    (∀ u tnow rest, inputs = (u, tnow) :: rest →
      (resolveOutputKeys [] inputs).head? = some (resolvePageKey u)) := by
  refine ⟨(resolveOutputKeys_nodup_aux inputs [] hsafe).1, ?_⟩
  intro u tnow rest hinputs
  subst hinputs
  rfl

/-- Witness for C3 (amended) at two same-base-key URLs. -/
theorem resolveOutputKeys_distinct_witness :
    fallbackSafe [] [(c3Url "/p".data "a".data, 5), (c3Url "/p".data "b".data, 5)] = true ∧
    ((resolveOutputKeys [] [(c3Url "/p".data "a".data, 5),
        (c3Url "/p".data "b".data, 5)]).Nodup ∧
      (∀ u tnow rest,
        [(c3Url "/p".data "a".data, 5), (c3Url "/p".data "b".data, 5)] = (u, tnow) :: rest →
        (resolveOutputKeys [] [(c3Url "/p".data "a".data, 5),
          (c3Url "/p".data "b".data, 5)]).head? = some (resolvePageKey u))) :=
  ⟨by decide, resolveOutputKeys_distinct _ (by decide)⟩

/-! ### `uniqueOrdered` lemmas -/

theorem mem_uniqueOrdered_go {α : Type} [DecidableEq α] (l : List α) :
    ∀ (seen : List α) (a : α), a ∈ uniqueOrdered.go l seen ↔ (a ∈ l ∧ a ∉ seen) := by
  induction l with
  | nil => intro seen a; simp [uniqueOrdered.go]
  | cons v rest ih =>
    intro seen a
    rw [uniqueOrdered.go]
    split
    · rename_i hv
      rw [ih]
      constructor
      · rintro ⟨ha, hs⟩
        exact ⟨List.mem_cons_of_mem _ ha, hs⟩
      · rintro ⟨ha, hs⟩
        rcases List.mem_cons.mp ha with ha | ha
        · subst ha; exact absurd hv hs
        · exact ⟨ha, hs⟩
    · rename_i hv
      rw [List.mem_cons, ih]
      constructor
      · rintro (ha | ⟨ha, hs⟩)
        · subst ha
          exact ⟨List.mem_cons_self _ _, hv⟩
        · refine ⟨List.mem_cons_of_mem _ ha, fun hh => hs (List.mem_cons_of_mem _ hh)⟩
      · rintro ⟨ha, hs⟩
        rcases List.mem_cons.mp ha with ha | ha
        · left; exact ha
        · by_cases hav : a = v
          · left; exact hav
          · right
            refine ⟨ha, ?_⟩
            rw [List.mem_cons]
            push_neg
            exact ⟨hav, hs⟩

theorem nodup_uniqueOrdered_go {α : Type} [DecidableEq α] (l : List α) :
    ∀ seen : List α, (uniqueOrdered.go l seen).Nodup := by
  induction l with
  | nil => intro seen; simp [uniqueOrdered.go]
  | cons v rest ih =>
    intro seen
    rw [uniqueOrdered.go]
    split
    · exact ih seen
    · rw [List.nodup_cons]
      refine ⟨?_, ih (v :: seen)⟩
      intro hmem
      exact ((mem_uniqueOrdered_go rest (v :: seen) v).mp hmem).2 (List.mem_cons_self _ _)

theorem length_uniqueOrdered_go {α : Type} [DecidableEq α] (l : List α) :
    ∀ seen : List α, (uniqueOrdered.go l seen).length ≤ l.length := by
  induction l with
  | nil => intro seen; simp [uniqueOrdered.go]
  | cons v rest ih =>
    intro seen
    rw [uniqueOrdered.go]
    split
    · exact Nat.le_succ_of_le (ih seen)
    · simpa using ih (v :: seen)

theorem mem_uniqueOrdered {α : Type} [DecidableEq α] (l : List α) (a : α) :
    a ∈ uniqueOrdered l ↔ a ∈ l := by
  unfold uniqueOrdered
  rw [mem_uniqueOrdered_go]
  simp

theorem uniqueOrdered_nodup {α : Type} [DecidableEq α] (l : List α) :
    (uniqueOrdered l).Nodup := nodup_uniqueOrdered_go l []

theorem uniqueOrdered_length_le {α : Type} [DecidableEq α] (l : List α) :
    (uniqueOrdered l).length ≤ l.length := length_uniqueOrdered_go l []

theorem nodup_append_one (l : List String) (x : String) (hn : l.Nodup) (hx : x ∉ l) :
    (l ++ [x]).Nodup := by
  rw [List.nodup_append]
  refine ⟨hn, List.nodup_singleton x, ?_⟩
  intro a ha hax
  rw [List.mem_singleton] at hax
  subst hax
  exact hx ha

/-! ### `addLinks` specification -/

theorem addLinks_discovered (maxPages nextDepth : Nat) (links : List String) :
    ∀ discovered, (addLinks maxPages nextDepth links discovered).1 =
      discovered ++ ((addLinks maxPages nextDepth links discovered).2).map Prod.fst := by
  induction links with
  | nil => intro discovered; simp [addLinks]
  | cons link rest ih =>
    intro discovered
    rw [addLinks]
    split
    · exact ih discovered
    · split
      · simp
      · have := ih (discovered ++ [link])
        simp only [List.map_cons, this, List.append_assoc, List.cons_append,
          List.nil_append]

theorem addLinks_items (maxPages nextDepth : Nat) (links : List String) :
    ∀ discovered, ∀ p ∈ (addLinks maxPages nextDepth links discovered).2,
      p.2 = nextDepth ∧ p.1 ∈ links := by
  induction links with
  | nil => intro discovered p hp; simp [addLinks] at hp
  | cons link rest ih =>
    intro discovered p hp
    rw [addLinks] at hp
    split at hp
    · obtain ⟨h1, h2⟩ := ih discovered p hp
      exact ⟨h1, List.mem_cons_of_mem _ h2⟩
    · split at hp
      · simp at hp
      · rcases List.mem_cons.mp hp with hp | hp
        · subst hp
          exact ⟨rfl, List.mem_cons_self _ _⟩
        · obtain ⟨h1, h2⟩ := ih (discovered ++ [link]) p hp
          exact ⟨h1, List.mem_cons_of_mem _ h2⟩

theorem addLinks_nodup (maxPages nextDepth : Nat) (links : List String) :
    ∀ discovered, discovered.Nodup →
      (addLinks maxPages nextDepth links discovered).1.Nodup := by
  induction links with
  | nil => intro discovered h; simpa [addLinks] using h
  | cons link rest ih =>
    intro discovered h
    rw [addLinks]
    split
    · exact ih discovered h
    · split
      · exact h
      · rename_i hnotmem _
        exact ih (discovered ++ [link]) (nodup_append_one _ _ h hnotmem)

theorem addLinks_length (maxPages nextDepth : Nat) (links : List String) :
    ∀ discovered, discovered.length ≤ maxPages →
      (addLinks maxPages nextDepth links discovered).1.length ≤ maxPages := by
  induction links with
  | nil => intro discovered h; simpa [addLinks] using h
  | cons link rest ih =>
    intro discovered h
    rw [addLinks]
    split
    · exact ih discovered h
    · split
      · exact h
      · rename_i hcap
        refine ih (discovered ++ [link]) ?_
        rw [List.length_append, List.length_singleton]
        omega

/-! ### Reachability lemmas -/

theorem reachN_succ_superset (fetch : String → Option (List String))
    (seedUrls : List String) (n : Nat) :
    ∀ u ∈ reachN fetch seedUrls n, u ∈ reachN fetch seedUrls (n + 1) := by
  intro u hu
  rw [reachN]
  exact List.mem_append_left _ hu

theorem reachN_mono (fetch : String → Option (List String)) (seedUrls : List String)
    {n m : Nat} (hnm : n ≤ m) :
    ∀ u ∈ reachN fetch seedUrls n, u ∈ reachN fetch seedUrls m := by
  induction m with
  | zero =>
    intro u hu
    rw [Nat.le_zero.mp hnm] at hu
    exact hu
  | succ m ih =>
    intro u hu
    by_cases hle : n ≤ m
    · exact reachN_succ_superset fetch seedUrls m u (ih hle u hu)
    · have heq : n = m + 1 := by omega
      rw [heq] at hu
      exact hu

theorem reachN_step (fetch : String → Option (List String)) (seedUrls : List String)
    (n : Nat) (u v : String) (links : List String)
    (hu : u ∈ reachN fetch seedUrls n) (hf : fetch u = some links) (hv : v ∈ links) :
    v ∈ reachN fetch seedUrls (n + 1) := by
  rw [reachN]
  refine List.mem_append_right _ ?_
  rw [List.mem_flatMap]
  exact ⟨u, hu, by rw [hf]; exact hv⟩

/-! ### Crawl loop invariants and termination -/

theorem crawlStep_inv (fetch : String → Option (List String)) (seedUrls : List String)
    (crawlDepth maxPages : Nat) (s : CrawlState)
    (hinv : CrawlInv fetch seedUrls crawlDepth maxPages s) :
    CrawlInv fetch seedUrls crawlDepth maxPages (crawlStep fetch crawlDepth maxPages s) := by
  obtain ⟨hnd, hlen, ⟨t, ht⟩, hq, hd⟩ := hinv
  unfold crawlStep
  split
  · exact ⟨hnd, hlen, ⟨t, ht⟩, hq, hd⟩
  · rename_i url depth rest hqs
    split
    · refine ⟨hnd, hlen, ⟨t, ht⟩, ?_, hd⟩
      intro p hp
      exact hq p (by rw [hqs]; exact List.mem_cons_of_mem _ hp)
    · rename_i links hf
      split
      · refine ⟨hnd, hlen, ⟨t, ht⟩, ?_, hd⟩
        intro p hp
        exact hq p (by rw [hqs]; exact List.mem_cons_of_mem _ hp)
      · rename_i hdep
        have hhead := hq (url, depth) (by rw [hqs]; exact List.mem_cons_self _ _)
        have hdepth1 : depth + 1 ≤ crawlDepth := by omega
        have hA1 := addLinks_discovered maxPages (depth + 1) links s.discovered
        have hA2 := addLinks_items maxPages (depth + 1) links s.discovered
        refine ⟨addLinks_nodup _ _ _ _ hnd, addLinks_length _ _ _ _ hlen, ?_, ?_, ?_⟩
        · refine ⟨t ++ ((addLinks maxPages (depth + 1) links s.discovered).2).map Prod.fst, ?_⟩
          rw [hA1, ht, List.append_assoc]
        · intro p hp
          rcases List.mem_append.mp hp with hp | hp
          · exact hq p (by rw [hqs]; exact List.mem_cons_of_mem _ hp)
          · obtain ⟨hp2, hp1⟩ := hA2 p hp
            rw [hp2]
            exact ⟨hdepth1,
              reachN_step fetch seedUrls depth url p.1 links hhead.2 hf hp1⟩
        · intro u hu
          rw [hA1] at hu
          rcases List.mem_append.mp hu with hu | hu
          · exact hd u hu
          · obtain ⟨p, hpmem, hpu⟩ := List.mem_map.mp hu
            obtain ⟨hp2, hp1⟩ := hA2 p hpmem
            rw [← hpu]
            exact reachN_mono fetch seedUrls hdepth1 p.1
              (reachN_step fetch seedUrls depth url p.1 links hhead.2 hf hp1)

theorem crawlStep_measure (fetch : String → Option (List String))
    (crawlDepth maxPages : Nat) (s : CrawlState)
    (hlen : s.discovered.length ≤ maxPages) (hne : s.queue ≠ []) :
    crawlMeasure maxPages (crawlStep fetch crawlDepth maxPages s) <
      crawlMeasure maxPages s := by
  unfold crawlStep
  split
  · rename_i hqs
    exact absurd hqs hne
  · rename_i url depth rest hqs
    have hq1 : s.queue.length = rest.length + 1 := by rw [hqs]; rfl
    split
    · unfold crawlMeasure
      simp only [hq1]
      omega
    · rename_i links hf
      split
      · unfold crawlMeasure
        simp only [hq1]
        omega
      · have hA1 := addLinks_discovered maxPages (depth + 1) links s.discovered
        have hAlen := addLinks_length maxPages (depth + 1) links s.discovered hlen
        have hlen1 : (addLinks maxPages (depth + 1) links s.discovered).1.length =
            s.discovered.length +
              ((addLinks maxPages (depth + 1) links s.discovered).2).length := by
          rw [hA1]
          simp
        unfold crawlMeasure
        simp only [List.length_append, hq1, hlen1]
        omega

theorem crawlLoop_final_fix (fetch : String → Option (List String))
    (crawlDepth maxPages : Nat) (s : CrawlState) (h : crawlFinal maxPages s) :
    ∀ n, crawlLoop fetch crawlDepth maxPages n s = s := by
  intro n
  cases n with
  | zero => rfl
  | succ n =>
    unfold crawlFinal at h
    rw [crawlLoop, if_pos h]

theorem crawlLoop_inv (fetch : String → Option (List String)) (seedUrls : List String)
    (crawlDepth maxPages : Nat) :
    ∀ (fuel : Nat) (s : CrawlState), CrawlInv fetch seedUrls crawlDepth maxPages s →
      CrawlInv fetch seedUrls crawlDepth maxPages
        (crawlLoop fetch crawlDepth maxPages fuel s) := by
  intro fuel
  induction fuel with
  | zero => intro s hs; exact hs
  | succ fuel ih =>
    intro s hs
    rw [crawlLoop]
    split
    · exact hs
    · exact ih _ (crawlStep_inv fetch seedUrls crawlDepth maxPages s hs)

theorem crawlLoop_reaches_final (fetch : String → Option (List String))
    (seedUrls : List String) (crawlDepth maxPages : Nat) :
    ∀ (fuel : Nat) (s : CrawlState), CrawlInv fetch seedUrls crawlDepth maxPages s →
      crawlMeasure maxPages s ≤ fuel →
      crawlFinal maxPages (crawlLoop fetch crawlDepth maxPages fuel s) := by
  intro fuel
  induction fuel with
  | zero =>
    intro s _ hm
    unfold crawlMeasure at hm
    left
    have : s.queue.length = 0 := by omega
    exact List.length_eq_zero.mp this
  | succ fuel ih =>
    intro s hs hm
    rw [crawlLoop]
    split
    · rename_i hfin
      exact hfin
    · rename_i hfin
      have hne : s.queue ≠ [] := fun hq => hfin (Or.inl hq)
      have hlen : s.discovered.length ≤ maxPages := hs.2.1
      have hmeas := crawlStep_measure fetch crawlDepth maxPages s hlen hne
      exact ih _ (crawlStep_inv fetch seedUrls crawlDepth maxPages s hs) (by omega)

theorem crawlLoop_add (fetch : String → Option (List String))
    (crawlDepth maxPages : Nat) :
    ∀ (a b : Nat) (s : CrawlState),
      crawlLoop fetch crawlDepth maxPages (a + b) s =
        crawlLoop fetch crawlDepth maxPages b
          (crawlLoop fetch crawlDepth maxPages a s) := by
  intro a
  induction a with
  | zero =>
    intro b s
    rw [Nat.zero_add]
    rfl
  | succ a ih =>
    intro b s
    by_cases hfin : s.queue = [] ∨ maxPages ≤ s.discovered.length
    · rw [show a + 1 + b = (a + b) + 1 from by omega]
      rw [crawlLoop, if_pos hfin, crawlLoop, if_pos hfin]
      exact (crawlLoop_final_fix fetch crawlDepth maxPages s hfin b).symm
    · rw [show a + 1 + b = (a + b) + 1 from by omega]
      rw [crawlLoop, if_neg hfin]
      conv_rhs => rw [crawlLoop, if_neg hfin]
      exact ih b (crawlStep fetch crawlDepth maxPages s)

theorem crawlInit_inv (fetch : String → Option (List String)) (seedUrls : List String)
    (crawlDepth maxPages : Nat) (hmp : seedUrls.length ≤ maxPages) :
    CrawlInv fetch seedUrls crawlDepth maxPages (crawlInit seedUrls) := by
  refine ⟨uniqueOrdered_nodup _, le_trans (uniqueOrdered_length_le _) hmp,
    ⟨[], by simp [crawlInit]⟩, ?_, ?_⟩
  · intro p hp
    simp only [crawlInit, List.mem_map] at hp
    obtain ⟨u, hu, hpu⟩ := hp
    rw [← hpu]
    exact ⟨Nat.zero_le _, hu⟩
  · intro u hu
    have hu' : u ∈ seedUrls := (mem_uniqueOrdered seedUrls u).mp hu
    exact reachN_mono fetch seedUrls (Nat.zero_le crawlDepth) u hu'

/-- C9: for every fetch behaviour (navigation failures included) and every
configured cap, `crawlTargets` returns a duplicate-free list extending the
deduplicated seed list, of length at most `max maxPages seedUrls.length`
(the effective cap), so that in particular every seed is returned. -/
theorem crawlTargets_invariants (fetch : String → Option (List String))
    (seedUrls : List String) (crawlDepth maxPages : Nat) :
    (crawlTargets fetch seedUrls crawlDepth maxPages).Nodup ∧
    (∃ t, crawlTargets fetch seedUrls crawlDepth maxPages = uniqueOrdered seedUrls ++ t) ∧
    (crawlTargets fetch seedUrls crawlDepth maxPages).length ≤
      max maxPages seedUrls.length ∧
    (∀ u ∈ seedUrls, u ∈ crawlTargets fetch seedUrls crawlDepth maxPages) := by
  have hinv := crawlLoop_inv fetch seedUrls crawlDepth (max maxPages seedUrls.length)
    (crawlFuel seedUrls (max maxPages seedUrls.length)) (crawlInit seedUrls)
    (crawlInit_inv fetch seedUrls crawlDepth (max maxPages seedUrls.length)
      (Nat.le_max_right _ _))
  obtain ⟨hnd, hlen, ⟨t, ht⟩, _, _⟩ := hinv
  refine ⟨hnd, ⟨t, ht⟩, hlen, ?_⟩
  intro u hu
  show u ∈ crawlTargets fetch seedUrls crawlDepth maxPages
  unfold crawlTargets
  rw [ht]
  exact List.mem_append_left _ ((mem_uniqueOrdered seedUrls u).mpr hu)

theorem crawlLoop_depth0_discovered (fetch : String → Option (List String))
    (maxPages : Nat) :
    ∀ (fuel : Nat) (s : CrawlState),
      (crawlLoop fetch 0 maxPages fuel s).discovered = s.discovered := by
  intro fuel
  induction fuel with
  | zero => intro s; rfl
  | succ fuel ih =>
    intro s
    rw [crawlLoop]
    split
    · rfl
    · rw [ih]
      unfold crawlStep
      split
      · rfl
      · split
        · rfl
        · split
          · rfl
          · rename_i hdep
            exact absurd (Nat.zero_le _) hdep

/-- C6: with crawl depth 0, for every seed list and every fetch behaviour,
the crawl returns exactly the deduplicated seed URLs and discovers no new
pages. -/
theorem crawlTargets_depth_zero (fetch : String → Option (List String))
    (seedUrls : List String) (maxPages : Nat) :
    crawlTargets fetch seedUrls 0 maxPages = uniqueOrdered seedUrls := by
  unfold crawlTargets
  rw [crawlLoop_depth0_discovered]
  rfl

/-- C1: for every finite link graph (fetch capability), non-empty seed list,
depth bound `D` and cap `M ≥` the seed count, the crawl loop terminates (it
reaches its stopping condition and further fuel does not change the state),
and `crawlTargets` returns at most `M` URLs, each reachable from some seed
within `D` link hops. -/
theorem crawlTargets_terminates_bounded (fetch : String → Option (List String))
    (seedUrls : List String) (D M : Nat)
    (hne : seedUrls ≠ []) (hM : seedUrls.length ≤ M) :
    (∃ n, crawlFinal M (crawlLoop fetch D M n (crawlInit seedUrls)) ∧
      (∀ m, n ≤ m → crawlLoop fetch D M m (crawlInit seedUrls) =
        crawlLoop fetch D M n (crawlInit seedUrls)) ∧
      crawlTargets fetch seedUrls D M =
        (crawlLoop fetch D M n (crawlInit seedUrls)).discovered) ∧
    (crawlTargets fetch seedUrls D M).length ≤ M ∧
    (∀ u ∈ crawlTargets fetch seedUrls D M, u ∈ reachN fetch seedUrls D) := by
  have hmax : max M seedUrls.length = M := max_eq_left hM
  have htargets : crawlTargets fetch seedUrls D M =
      (crawlLoop fetch D M (crawlFuel seedUrls M) (crawlInit seedUrls)).discovered := by
    unfold crawlTargets
    rw [hmax]
  have hinit := crawlInit_inv fetch seedUrls D M hM
  have hmeas : crawlMeasure M (crawlInit seedUrls) ≤ crawlFuel seedUrls M := by
    unfold crawlMeasure crawlFuel crawlInit
    simp only [List.length_map]
    omega
  have hfinal := crawlLoop_reaches_final fetch seedUrls D M (crawlFuel seedUrls M)
    (crawlInit seedUrls) hinit hmeas
  have hinv := crawlLoop_inv fetch seedUrls D M (crawlFuel seedUrls M)
    (crawlInit seedUrls) hinit
  obtain ⟨hnd, hlen, _, _, hreach⟩ := hinv
  refine ⟨⟨crawlFuel seedUrls M, hfinal, ?_, htargets⟩, ?_, ?_⟩
  · intro m hm
    rw [show m = crawlFuel seedUrls M + (m - crawlFuel seedUrls M) from by omega,
      crawlLoop_add]
    exact crawlLoop_final_fix fetch D M _ hfinal _
  · rw [htargets]
    exact hlen
  · intro u hu
    rw [htargets] at hu
    exact hreach u hu

/-- Witness for C1 on a two-page graph. -/
theorem crawlTargets_terminates_bounded_witness :
    (["https://a.ca/"] ≠ ([] : List String)) ∧
    (["https://a.ca/"] : List String).length ≤ 2 ∧
    ((∃ n, crawlFinal 2 (crawlLoop
        (fun u => if u = "https://a.ca/" then some ["https://a.ca/b"] else none)
        1 2 n (crawlInit ["https://a.ca/"])) ∧
      (∀ m, n ≤ m → crawlLoop
          (fun u => if u = "https://a.ca/" then some ["https://a.ca/b"] else none)
          1 2 m (crawlInit ["https://a.ca/"]) =
        crawlLoop (fun u => if u = "https://a.ca/" then some ["https://a.ca/b"] else none)
          1 2 n (crawlInit ["https://a.ca/"])) ∧
      crawlTargets (fun u => if u = "https://a.ca/" then some ["https://a.ca/b"] else none)
          ["https://a.ca/"] 1 2 =
        (crawlLoop (fun u => if u = "https://a.ca/" then some ["https://a.ca/b"] else none)
          1 2 n (crawlInit ["https://a.ca/"])).discovered) ∧
    (crawlTargets (fun u => if u = "https://a.ca/" then some ["https://a.ca/b"] else none)
        ["https://a.ca/"] 1 2).length ≤ 2 ∧
    (∀ u ∈ crawlTargets (fun u => if u = "https://a.ca/" then some ["https://a.ca/b"] else none)
        ["https://a.ca/"] 1 2,
      u ∈ reachN (fun u => if u = "https://a.ca/" then some ["https://a.ca/b"] else none)
        ["https://a.ca/"] 1)) :=
  ⟨by decide, by decide,
    crawlTargets_terminates_bounded
      (fun u => if u = "https://a.ca/" then some ["https://a.ca/b"] else none)
      ["https://a.ca/"] 1 2 (by decide) (by decide)⟩

/-! ### Scroll stabilisation lemmas -/

theorem scrollStateSpec_snd (h : Nat → Nat) (k : Nat) :
    (scrollStateSpec h (k + 1)).2 =
      if h (k + 1) ≤ (scrollStateSpec h k).1 + 2 then (scrollStateSpec h k).2 + 1
      else 0 := by
  rw [scrollStateSpec]
  unfold scrollObserve
  rw [apply_ite Prod.snd]

theorem scrollStateSpec_fst (h : Nat → Nat) (k : Nat) :
    (scrollStateSpec h (k + 1)).1 =
      if h (k + 1) ≤ (scrollStateSpec h k).1 + 2 then (scrollStateSpec h k).1
      else h (k + 1) := by
  rw [scrollStateSpec]
  unfold scrollObserve
  rw [apply_ite Prod.fst]

theorem scrollStateSpec_snd_le (h : Nat → Nat) : ∀ k, (scrollStateSpec h k).2 ≤ k := by
  intro k
  induction k with
  | zero => rfl
  | succ k ih =>
    rw [scrollStateSpec_snd]
    split
    · omega
    · omega

theorem scrollLoop_run (h : Nat → Nat) (maxR stop : Nat) :
    ∀ (fuel round : Nat), maxR ≤ fuel + round → round ≤ maxR →
      ∀ r m s', scrollLoop h maxR stop fuel round
          (scrollStateSpec h round).1 (scrollStateSpec h round).2 = (r, m, s') →
        round ≤ r ∧ r ≤ maxR ∧ (m, s') = scrollStateSpec h r ∧
        (r < maxR → stop ≤ s') ∧
        (∀ j, round < j → j < r → (scrollStateSpec h j).2 < stop) := by
  intro fuel
  induction fuel with
  | zero =>
    intro round hfuel hrle r m s' hrun
    rw [scrollLoop] at hrun
    injection hrun with h1 hrun
    injection hrun with h2 h3
    subst h1
    subst h2
    subst h3
    refine ⟨Nat.le_refl _, hrle, rfl, ?_, ?_⟩
    · intro hlt
      omega
    · intro j hj1 hj2
      omega
  | succ fuel ih =>
    intro round hfuel hrle r m s' hrun
    rw [scrollLoop] at hrun
    by_cases hcap : maxR ≤ round
    · rw [if_pos hcap] at hrun
      injection hrun with h1 hrun
      injection hrun with h2 h3
      subst h1
      subst h2
      subst h3
      refine ⟨Nat.le_refl _, hrle, rfl, ?_, ?_⟩
      · intro hlt
        omega
      · intro j hj1 hj2
        omega
    · rw [if_neg hcap] at hrun
      have hobs : scrollObserve (scrollStateSpec h round).1 (scrollStateSpec h round).2
          (h (round + 1)) = scrollStateSpec h (round + 1) := rfl
      rw [hobs] at hrun
      by_cases hstop : stop ≤ (scrollStateSpec h (round + 1)).2
      · rw [if_pos hstop] at hrun
        injection hrun with h1 hrun
        subst h1
        have hms : (m, s') = scrollStateSpec h (round + 1) := by
          rw [← hrun]
        refine ⟨Nat.le_succ _, by omega, hms, ?_, ?_⟩
        · intro _
          have : s' = (scrollStateSpec h (round + 1)).2 := congrArg Prod.snd hms
          omega
        · intro j hj1 hj2
          omega
      · rw [if_neg hstop] at hrun
        obtain ⟨ha, hb, hc, hd, he⟩ :=
          ih (round + 1) (by omega) (by omega) r m s' hrun
        refine ⟨by omega, hb, hc, hd, ?_⟩
        intro j hj1 hj2
        by_cases hjr : j = round + 1
        · subst hjr
          omega
        · exact he j (by omega) hj2

/-- C2: the scroll-stabilisation loop of `triggerDeferredContent` executes
at most 36 rounds; it stops before that cap exactly when the stable-round
counter reaches 3 within the first 35 executed rounds, which happens exactly
when 3 consecutive rounds observe a height not exceeding the recorded
maximum by more than 2 pixels; on a growing round the counter resets to 0
and the maximum is updated, and on a non-growing round the counter
increments with the maximum unchanged. -/
theorem triggerDeferredContent_spec (h : Nat → Nat) :
    (triggerDeferredContent h).1 ≤ 36 ∧
    ((triggerDeferredContent h).1 < 36 ↔
      ∃ n, n < 36 ∧ 3 ≤ (scrollStateSpec h n).2) ∧
    (∀ n, 3 ≤ (scrollStateSpec h (n + 3)).2 ↔
      (h (n + 1) ≤ (scrollStateSpec h n).1 + 2 ∧
       h (n + 2) ≤ (scrollStateSpec h (n + 1)).1 + 2 ∧
       h (n + 3) ≤ (scrollStateSpec h (n + 2)).1 + 2)) ∧
    (∀ n, (scrollStateSpec h n).1 + 2 < h (n + 1) →
      scrollStateSpec h (n + 1) = (h (n + 1), 0)) ∧
    (∀ n, h (n + 1) ≤ (scrollStateSpec h n).1 + 2 →
      scrollStateSpec h (n + 1) =
        ((scrollStateSpec h n).1, (scrollStateSpec h n).2 + 1)) := by
  have hrun := scrollLoop_run h 36 3 36 0 (by omega) (by omega)
    (triggerDeferredContent h).1 (triggerDeferredContent h).2.1
    (triggerDeferredContent h).2.2 rfl
  obtain ⟨_, hle, hspec, hstop, hmid⟩ := hrun
  refine ⟨hle, ⟨?_, ?_⟩, ?_, ?_, ?_⟩
  · intro hlt
    refine ⟨(triggerDeferredContent h).1, hlt, ?_⟩
    have := hstop hlt
    have h2 : (triggerDeferredContent h).2.2 =
        (scrollStateSpec h (triggerDeferredContent h).1).2 := congrArg Prod.snd hspec
    omega
  · rintro ⟨n, hn36, hn3⟩
    by_contra hge
    have hr36 : (triggerDeferredContent h).1 = 36 := by omega
    have hn0 : n ≠ 0 := by
      intro hn0
      rw [hn0] at hn3
      have : (scrollStateSpec h 0).2 = 0 := rfl
      omega
    have := hmid n (by omega) (by omega)
    omega
  · intro n
    have i2 : n + 1 + 1 = n + 2 := by omega
    have i3 : n + 2 + 1 = n + 3 := by omega
    constructor
    · intro h3
      have e3 := scrollStateSpec_snd h (n + 2)
      rw [i3] at e3
      have c3 : h (n + 3) ≤ (scrollStateSpec h (n + 2)).1 + 2 := by
        by_contra hc
        rw [if_neg hc] at e3
        omega
      rw [if_pos c3] at e3
      have e2 := scrollStateSpec_snd h (n + 1)
      rw [i2] at e2
      have c2 : h (n + 2) ≤ (scrollStateSpec h (n + 1)).1 + 2 := by
        by_contra hc
        rw [if_neg hc] at e2
        omega
      rw [if_pos c2] at e2
      have e1 := scrollStateSpec_snd h n
      have c1 : h (n + 1) ≤ (scrollStateSpec h n).1 + 2 := by
        by_contra hc
        rw [if_neg hc] at e1
        omega
      exact ⟨c1, c2, c3⟩
    · rintro ⟨c1, c2, c3⟩
      have e1 := scrollStateSpec_snd h n
      rw [if_pos c1] at e1
      have e2 := scrollStateSpec_snd h (n + 1)
      rw [i2, if_pos c2] at e2
      have e3 := scrollStateSpec_snd h (n + 2)
      rw [i3, if_pos c3] at e3
      omega
  · intro n hgrow
    rw [scrollStateSpec]
    unfold scrollObserve
    rw [if_neg (by omega)]
  · intro n hstable
    rw [scrollStateSpec]
    unfold scrollObserve
    rw [if_pos hstable]

/-- Witness for C2 at a concrete height sequence (two growth rounds, then
constant height: the loop stops after round 5). -/
theorem triggerDeferredContent_spec_witness :
    ((triggerDeferredContent (fun n => 100 * min n 2)).1 ≤ 36 ∧
    ((triggerDeferredContent (fun n => 100 * min n 2)).1 < 36 ↔
      ∃ n, n < 36 ∧ 3 ≤ (scrollStateSpec (fun n => 100 * min n 2) n).2) ∧
    (∀ n, 3 ≤ (scrollStateSpec (fun n => 100 * min n 2) (n + 3)).2 ↔
      ((fun n => 100 * min n 2) (n + 1) ≤
          (scrollStateSpec (fun n => 100 * min n 2) n).1 + 2 ∧
       (fun n => 100 * min n 2) (n + 2) ≤
          (scrollStateSpec (fun n => 100 * min n 2) (n + 1)).1 + 2 ∧
       (fun n => 100 * min n 2) (n + 3) ≤
          (scrollStateSpec (fun n => 100 * min n 2) (n + 2)).1 + 2)) ∧
    (∀ n, (scrollStateSpec (fun n => 100 * min n 2) n).1 + 2 <
        (fun n => 100 * min n 2) (n + 1) →
      scrollStateSpec (fun n => 100 * min n 2) (n + 1) =
        ((fun n => 100 * min n 2) (n + 1), 0)) ∧
    (∀ n, (fun n => 100 * min n 2) (n + 1) ≤
        (scrollStateSpec (fun n => 100 * min n 2) n).1 + 2 →
      scrollStateSpec (fun n => 100 * min n 2) (n + 1) =
        ((scrollStateSpec (fun n => 100 * min n 2) n).1,
          (scrollStateSpec (fun n => 100 * min n 2) n).2 + 1))) ∧
    (triggerDeferredContent (fun n => 100 * min n 2)).1 = 5 :=
  ⟨triggerDeferredContent_spec (fun n => 100 * min n 2), by decide⟩

/-! ### Extraction lemmas and the C5 theorems -/

theorem uniqueOrdered_go_sublist {α : Type} [DecidableEq α] (l : List α) :
    ∀ seen : List α, (uniqueOrdered.go l seen).Sublist l := by
  induction l with
  | nil => intro seen; rw [uniqueOrdered.go]
  | cons v rest ih =>
    intro seen
    rw [uniqueOrdered.go]
    split
    · exact List.Sublist.cons v (ih seen)
    · exact List.Sublist.cons₂ v (ih (v :: seen))

theorem uniqueOrdered_sublist {α : Type} [DecidableEq α] (l : List α) :
    (uniqueOrdered l).Sublist l := uniqueOrdered_go_sublist l []

theorem filterMap_filter_isSome {α β : Type} (f : α → Option β) (l : List α) :
    (l.filter (fun a => (f a).isSome)).filterMap f = l.filterMap f := by
  induction l with
  | nil => rfl
  | cons a t ih =>
    cases hfa : f a with
    | none => simp [List.filter_cons, List.filterMap_cons, hfa, ih]
    | some b => simp [List.filter_cons, List.filterMap_cons, hfa, ih]

theorem string_mk_injective : Function.Injective String.mk :=
  fun _ _ h => congrArg String.data h

theorem mem_map_string_mk (L : List (List Char)) (u : String) :
    u ∈ L.map String.mk ↔ u.data ∈ L := by
  rw [List.mem_map]
  constructor
  · rintro ⟨l, hl, rfl⟩
    exact hl
  · intro h
    exact ⟨u.data, h, rfl⟩

/-- C5 (amended): the output of `extractUrlsFromText` has no duplicates; it
is, in order, a sublist of the successful normalizations of the candidate
list (so it follows the candidate order: the three passes in sequence, not
the position of first occurrence in the text); a URL appears in the output
exactly when some extracted candidate normalizes to it; and dropping the
candidates whose normalization fails leaves the result unchanged, so a
failing candidate is discarded without affecting the others. -/
theorem extractUrlsFromText_spec (content : String) :
    (extractUrlsFromText content).Nodup ∧
    ((extractUrlsFromText content).map String.data).Sublist
      ((extractCandidates content.data).filterMap normalizeCaptureUrlC) ∧
    (∀ u : String, u ∈ extractUrlsFromText content ↔
      ∃ c, c ∈ extractCandidates content.data ∧
        normalizeCaptureUrlC c = some u.data) ∧
    ((extractCandidates content.data).filter
        (fun c => (normalizeCaptureUrlC c).isSome)).filterMap
      normalizeCaptureUrlC =
      (extractCandidates content.data).filterMap normalizeCaptureUrlC := by
  refine ⟨?_, ?_, ?_, ?_⟩
  · exact (uniqueOrdered_nodup _).map string_mk_injective
  · have hmap : (extractUrlsFromText content).map String.data =
        extractUrlsFromTextC content.data := by
      unfold extractUrlsFromText
      rw [List.map_map]
      exact List.map_id _
    rw [hmap]
    exact uniqueOrdered_sublist _
  · intro u
    unfold extractUrlsFromText
    rw [mem_map_string_mk]
    unfold extractUrlsFromTextC
    rw [mem_uniqueOrdered, List.mem_filterMap]
  · exact filterMap_filter_isSome _ _

/-- C5 counterexample to the claimed output order: in the content made of
the line with the bare domain of host b followed by the line with the plain
http URL of host a, the bare domain occurs first in the text (index 0
against index 5) and both candidates normalize, yet the output lists the
http URL first, because the token pass runs before the bare-domain pass. -/
theorem extractUrlsFromText_order_counterexample :
    extractUrlsFromText "b.ca\nhttp://a.ca" =
      ["http://a.ca/", "https://b.ca/"] ∧
    firstIndexOfSub ("b.ca".data) ("b.ca\nhttp://a.ca".data) = some 0 ∧
    firstIndexOfSub ("http://a.ca".data) ("b.ca\nhttp://a.ca".data) = some 5 ∧
    normalizeCaptureUrl "b.ca" = some "https://b.ca/" ∧
    normalizeCaptureUrl "http://a.ca" = some "http://a.ca/" :=
  ⟨rfl, rfl, rfl, rfl, rfl⟩

/-! ### CLI theorems (C7 and C8) -/

/-- C7: `parseCliArguments` rejects `--loop` with an unknown-option error
instead of treating it as an alias of `--crawl`; the primary flags
`--crawl` and `--crawl-depth` do work on the same invocation shape. -/
theorem parseCliArguments_loop_alias_rejected :
    parseCliArguments
        ["https://example.com", "--loop", "--loop-depth", "2",
          "--max-pages", "40"] =
      Except.error ("Unknown option: " ++ "--loop") ∧
    parseCliArguments ["https://example.com", "--crawl", "--crawl-depth", "2"] =
      Except.ok { defaultCliOptions with
        positionalUrls := ["https://example.com"], crawl := true,
        crawlDepth := 2 } :=
  ⟨rfl, rfl⟩

/-- C8 counterexample: the mistyped flag token of the url-file family is
consumed by the prefix dispatch together with the following value, and the
parse succeeds, instead of failing with an unknown-option error. -/
theorem parseCliArguments_mistyped_flag_consumed :
    parseCliArguments ["--url-filex", "t.txt"] =
      Except.ok { defaultCliOptions with urlFiles := ["t.txt"] } := rfl

/-- C8 (amended): a leading token that starts with a double dash, is none
of the exact flags and does not start with any of the value-flag names is
rejected with the unknown-option error naming the token, whatever follows
it. -/
theorem parseCliArguments_unknown_rejected (arg : String) (rest : List String)
    (hdash : startsWithC arg.data ('-' :: '-' :: []) = true)
    (hhelp : ¬(arg = "--help" ∨ arg = "-h"))
    (hcrawl : arg ≠ "--crawl")
    (hnocrawl : arg ≠ "--no-crawl")
    (hsoo : arg ≠ "--same-origin-only")
    (hsooeq : startsWithC arg.data ("--same-origin-only=".data) = false)
    (hnosoo : arg ≠ "--no-same-origin-only")
    (hurlfile : startsWithC arg.data ("--url-file".data) = false)
    (houtdir : startsWithC arg.data ("--output-dir".data) = false)
    (hout : startsWithC arg.data ("--output".data) = false)
    (hdepth : startsWithC arg.data ("--crawl-depth".data) = false)
    (hmax : startsWithC arg.data ("--max-pages".data) = false)
    (htimeout : startsWithC arg.data ("--timeout-ms".data) = false)
    (hscale : startsWithC arg.data ("--scale".data) = false)
    (hexcl : startsWithC arg.data ("--exclude-class".data) = false)
    (hexid : startsWithC arg.data ("--exclude-id".data) = false)
    (hmode : startsWithC arg.data ("--mode".data) = false)
    (hseg : arg ≠ "--segments") :
    parseCliArguments (arg :: rest) =
      Except.error ("Unknown option: " ++ arg) := by
  show parseCliLoop (rest.length + 1) (arg :: rest) defaultCliOptions = _
  rw [parseCliLoop]
  have hstep : parseCliStep arg rest defaultCliOptions =
      Except.error ("Unknown option: " ++ arg) := by
    unfold parseCliStep
    rw [if_neg hhelp]
    rw [if_neg (show ¬((!startsWithC arg.data ('-' :: '-' :: [])) = true) by
      rw [hdash]; decide)]
    rw [if_neg hcrawl, if_neg hnocrawl, if_neg hsoo]
    rw [if_neg (show ¬(startsWithC arg.data ("--same-origin-only=".data) = true) by
      rw [hsooeq]; decide)]
    rw [if_neg hnosoo]
    rw [if_neg (show ¬(startsWithC arg.data ("--url-file".data) = true) by
      rw [hurlfile]; decide)]
    rw [if_neg (show ¬((startsWithC arg.data ("--output-dir".data) ||
        startsWithC arg.data ("--output".data)) = true) by
      rw [houtdir, hout]; decide)]
    rw [if_neg (show ¬(startsWithC arg.data ("--crawl-depth".data) = true) by
      rw [hdepth]; decide)]
    rw [if_neg (show ¬(startsWithC arg.data ("--max-pages".data) = true) by
      rw [hmax]; decide)]
    rw [if_neg (show ¬(startsWithC arg.data ("--timeout-ms".data) = true) by
      rw [htimeout]; decide)]
    rw [if_neg (show ¬(startsWithC arg.data ("--scale".data) = true) by
      rw [hscale]; decide)]
    rw [if_neg (show ¬(startsWithC arg.data ("--exclude-class".data) = true) by
      rw [hexcl]; decide)]
    rw [if_neg (show ¬(startsWithC arg.data ("--exclude-id".data) = true) by
      rw [hexid]; decide)]
    rw [if_neg (show ¬(startsWithC arg.data ("--mode".data) = true) by
      rw [hmode]; decide)]
    rw [if_neg hseg]
  rw [hstep]

/-- Witness for the amended C8 theorem at a concrete unknown token. -/
theorem parseCliArguments_unknown_rejected_witness :
    parseCliArguments ["--frobnicate"] =
      Except.error ("Unknown option: " ++ "--frobnicate") :=
  parseCliArguments_unknown_rejected "--frobnicate" []
    (by decide) (by decide) (by decide) (by decide) (by decide) (by decide)
    (by decide) (by decide) (by decide) (by decide) (by decide) (by decide)
    (by decide) (by decide) (by decide) (by decide) (by decide) (by decide)

end ScreenshotTool
